import Mathlib

/-!
# Verification of the FFT engine of `qm2d_split_op` (`src/fft.rs`)

Shallow embedding of `src/qm2d_split_op/src/fft.rs`.  Mutable slices are
modelled as total functions `ℕ → α`; in-place mutation becomes functional
update.  The element type `Complex<f32>` / `Complex<f64>` (defined in
`complex.rs`, which is not part of the given sources) is modelled from the
spec as Mathlib's `ℂ`: the spec describes it as a pair (real, imaginary)
supporting addition, subtraction, scalar scaling, complex multiplication and
precision conversion, and declares the arithmetic "assumed correct"; the
embedding therefore works in exact real arithmetic, so floating-point
tolerances become exact equalities.
-/

namespace Fft


/-- The three-assignment swap of the source
(`tmp = a[p]; a[p] = a[q]; a[q] = tmp`) on a function array. -/
def swapAt {α : Type} (a : ℕ → α) (p q : ℕ) : ℕ → α :=
  fun r => if r = p then a q else if r = q then a p else a r

/-- Performing a list of swaps in sequence. -/
def swapFold {α : Type} (L : List (ℕ × ℕ)) (a : ℕ → α) : ℕ → α :=
  L.foldl (fun a pq => swapAt a pq.1 pq.2) a

/-!
## Bit reversal (`reverse_bit_sort`)
-/

/-- The inner `while u < n` loop of `reverse_bit_sort`, computing the
bit-reversed index.  State: `u` is the probe bit weight (starts at `1`,
doubles), `d` the destination weight (starts at `n >> 1`, halves), `rev` the
accumulator.  The `0 < u` conjunct is a termination guard only: the source
always starts the loop with `u = 1`, so `u` stays positive. -/
def revLoop (n i : ℕ) (u d rev : ℕ) : ℕ :=
  if _h : u < n ∧ 0 < u then
    revLoop n i (u <<< 1) (d >>> 1) (rev + d * ((i &&& u) / u))
  else rev
termination_by n - u
decreasing_by
  simp only [Nat.shiftLeft_eq, pow_one]
  omega

/-- Value `rev(i)` as computed by `reverse_bit_sort`: initialisation
`u = 1`, `d = n >> 1`, `rev = 0`. -/
def revBits (n i : ℕ) : ℕ := revLoop n i 1 (n >>> 1) 0

/-- The body of the `for i in 0..n` loop of `reverse_bit_sort`:
swap `a[i]` and `a[rev]` when `rev >= i`. -/
def revSortStep {α : Type} (n : ℕ) (a : ℕ → α) (i : ℕ) : ℕ → α :=
  if revBits n i ≥ i then swapAt a i (revBits n i) else a

/-- Embedding of `reverse_bit_sort` from the source: for each `i` in `0..n`, compute
`rev` and conditionally swap. -/
def reverse_bit_sort {α : Type} (a : ℕ → α) (n : ℕ) : ℕ → α :=
  (List.range n).foldl (revSortStep n) a

/-- Reference form of bit reversal: `bitRevAux m t i` reads the `m` bits of
`i` at positions `t, t+1, …, t+m-1` and writes them in reversed order. -/
def bitRevAux : ℕ → ℕ → ℕ → ℕ
  | 0, _, _ => 0
  | m + 1, t, i => 2 ^ m * (i / 2 ^ t % 2) + bitRevAux m (t + 1) i

/-- Reversal of the low `k` bits of `i`. -/
def bitRev (k i : ℕ) : ℕ := bitRevAux k 0 i

/-- The optional swap emitted by iteration `i` of `reverse_bit_sort`. -/
def revPairOpt (n i : ℕ) : Option (ℕ × ℕ) :=
  if revBits n i ≥ i then some (i, revBits n i) else none

/-- All swaps performed by `reverse_bit_sort`, in program order. -/
def revPairs (n : ℕ) : List (ℕ × ℕ) := (List.range n).filterMap (revPairOpt n)

/-!
## The radix-2 kernel (`base_f32_fft_in_place`)

`Complex<f32>` values are widened to `Complex<f64>` before each butterfly
and narrowed on write-back; in the exact model both precisions are `ℂ` and
the conversions are the identity.  `Complex::scale` multiplies both
components by a real, i.e. multiplication by a real cast to `ℂ`.
-/

noncomputable section

/-- The direction sign of the source: `let sgn = if is_inverse {-1.0} else {1.0}`. -/
def sgnOf (is_inverse : Bool) : ℝ := if is_inverse then -1 else 1

/-- The twiddle factor of the butterfly body:
real part `cos(2·π·i/block_size)`, imaginary part `sgn·sin(2·π·i/block_size)`. -/
def twiddle (is_inverse : Bool) (block_size i : ℕ) : ℂ :=
  ⟨Real.cos (2 * Real.pi * i / block_size),
   sgnOf is_inverse * Real.sin (2 * Real.pi * i / block_size)⟩

/-- The butterfly scale factor:
`if is_inverse && block_size == size { 1.0/(size as f64) } else { 1.0 }`. -/
def sFactor (is_inverse : Bool) (size block_size : ℕ) : ℝ :=
  if is_inverse = true ∧ block_size = size then 1 / (size : ℝ) else 1

/-- One butterfly: reads `even = a[j+i]` and `odd = a[j+i+block_size/2]`,
writes back `s·(even + odd·e)` and `s·(even − odd·e)`. -/
def butterflyStep (is_inverse : Bool) (size block_size j i : ℕ) (a : ℕ → ℂ) : ℕ → ℂ :=
  let e := twiddle is_inverse block_size i
  let even := a (j + i)
  let odd := a (j + i + block_size / 2)
  let s := sFactor is_inverse size block_size
  fun q =>
    if q = j + i then (s : ℂ) * (even + odd * e)
    else if q = j + i + block_size / 2 then (s : ℂ) * (even - odd * e)
    else a q

/-- The `for i in 0..block_size/2` loop of the kernel. -/
def innerPass (is_inverse : Bool) (size block_size j : ℕ) (a : ℕ → ℂ) : ℕ → ℂ :=
  (List.range (block_size / 2)).foldl
    (fun a i => butterflyStep is_inverse size block_size j i a) a

/-- The `while j < size` loop: one full butterfly pass over all blocks.
The `0 < block_size` conjunct is a termination guard only; the kernel calls
this with `block_size ≥ 2`. -/
def blockLoop (is_inverse : Bool) (size block_size j : ℕ) (a : ℕ → ℂ) : ℕ → ℂ :=
  if _h : j < size ∧ 0 < block_size then
    blockLoop is_inverse size block_size (j + block_size)
      (innerPass is_inverse size block_size j a)
  else a
termination_by size - j
decreasing_by omega

/-- The `while block_size <= size` loop: passes with doubling block size.
The `0 < block_size` conjunct is a termination guard only; the kernel
starts at `block_size = 2`. -/
def passLoop (is_inverse : Bool) (size block_size : ℕ) (a : ℕ → ℂ) : ℕ → ℂ :=
  if _h : block_size ≤ size ∧ 0 < block_size then
    passLoop is_inverse size (block_size * 2)
      (blockLoop is_inverse size block_size 0 a)
  else a
termination_by size + 1 - block_size
decreasing_by omega

/-- Embedding of `base_f32_fft_in_place`: bit-reversal followed by the butterfly passes,
starting at `block_size = 2`. -/
def base_f32_fft_in_place (a : ℕ → ℂ) (size : ℕ) (is_inverse : Bool) : ℕ → ℂ :=
  passLoop is_inverse size 2 (reverse_bit_sort a size)

/-- Forward wrapper (`is_inverse = false`). -/
def fft_in_place (a : ℕ → ℂ) (size : ℕ) : ℕ → ℂ :=
  base_f32_fft_in_place a size false

/-- Inverse wrapper (`is_inverse = true`). -/
def ifft_in_place (a : ℕ → ℂ) (size : ℕ) : ℕ → ℂ :=
  base_f32_fft_in_place a size true

/-- The root of unity effectively used by direction `is_inverse`:
`exp(sgn·(2π/B)·I)`, `sgn = +1` forward and `-1` inverse. -/
def omegaC (is_inverse : Bool) (B : ℕ) : ℂ :=
  Complex.exp ((sgnOf is_inverse * (2 * Real.pi / B) : ℝ) * Complex.I)

/-- Unnormalised discrete Fourier sum of length `B` in the direction's sign
convention; the reference the kernel is proved against. -/
def dftG (is_inverse : Bool) (B : ℕ) (y : ℕ → ℂ) (r : ℕ) : ℂ :=
  ∑ m ∈ Finset.range B, y m * (omegaC is_inverse B) ^ (r * m)

/-!
## `square_transpose_in_place`
-/

end

/-- Embedding of `square_transpose_in_place` from the source: for `i` in `0..n`, for `j`
in `i+1..n`, swap `a[i*n + j]` and `a[j*n + i]`. -/
def square_transpose_in_place {α : Type} (a : ℕ → α) (n : ℕ) : ℕ → α :=
  (List.range n).foldl
    (fun a i =>
      (List.range' (i + 1) (n - (i + 1))).foldl
        (fun a j => swapAt a (i * n + j) (j * n + i)) a) a

/-- The swaps of the `i`-th outer iteration of `square_transpose_in_place`,
in program order. -/
def transposeRowPairs (n i : ℕ) : List (ℕ × ℕ) :=
  (List.range' (i + 1) (n - (i + 1))).map (fun j => (i * n + j, j * n + i))

/-- The swaps performed by `square_transpose_in_place`, in program order. -/
def transposePairs (n : ℕ) : List (ℕ × ℕ) :=
  (List.range n).flatMap (transposeRowPairs n)

/-!
## `horizontal_square_fft`

Modelled from the spec where the sources are incomplete: the grid size `N`
and worker count `TH_COUNT` live in `constants.rs`, which is not among the
given sources; the spec states they are process-wide constants with
`TH_COUNT` evenly dividing `N`.  The embedding takes them as parameters and
carries the divisibility precondition as a hypothesis.  Worker threads and
channels are deterministic here: each worker is a pure function of its
private copy, and each partition's result is merged at offsets derived from
the partition index, so the pure model folds the merges in the order the
orchestrator pops its receiver vector (`TH_COUNT - 1` down to `0`).
-/

/-- Single store `a[p] = x`. -/
def updAt {α : Type} (a : ℕ → α) (p : ℕ) (x : α) : ℕ → α :=
  fun q => if q = p then x else a q

noncomputable section

/-- One iteration of the worker loop: hand the sub-slice
`v[o..o+N]` to the 1-D transform (`o = i*N`); Rust slicing confines reads
and writes to the slice. -/
def sliceTransform (is_inverse : Bool) (N o : ℕ) (v : ℕ → ℂ) : ℕ → ℂ :=
  fun q =>
    if o ≤ q ∧ q < o + N then
      (if is_inverse then ifft_in_place (fun p => v (o + p)) N
       else fft_in_place (fun p => v (o + p)) N) (q - o)
    else v q

/-- The worker body: transform each of the `N/TH_COUNT` rows of the private
buffer in place, row by row. -/
def workerRows (is_inverse : Bool) (N TH_COUNT : ℕ) (v : ℕ → ℂ) : ℕ → ℂ :=
  (List.range (N / TH_COUNT)).foldl
    (fun v i => sliceTransform is_inverse N (i * N) v) v

/-- The private copy pushed for worker `th_index`:
`v[p] = array[th_index*N*N/TH_COUNT + p]`. -/
def partitionCopy (N TH_COUNT th_index : ℕ) (a : ℕ → ℂ) : ℕ → ℂ :=
  fun p => a (th_index * N * N / TH_COUNT + p)

/-- The write-back loops for partition `th_index`:
`array[N*i + j] = v[(i - th_index*N/TH_COUNT)*N + j]` for `i` in the
partition's row range and `j` in `0..N`. -/
def mergePartition (N TH_COUNT th_index : ℕ) (v : ℕ → ℂ) (a : ℕ → ℂ) : ℕ → ℂ :=
  (List.range' (th_index * N / TH_COUNT)
      ((th_index + 1) * N / TH_COUNT - th_index * N / TH_COUNT)).foldl
    (fun a i =>
      (List.range N).foldl
        (fun a j => updAt a (N * i + j) (v ((i - th_index * N / TH_COUNT) * N + j))) a) a

/-- Embedding of `horizontal_square_fft`: copy out each partition, transform its rows
(worker bodies are pure), then merge the results back in the order the
receiver vector is popped: `th_index = TH_COUNT-1` down to `0`. -/
def horizontal_square_fft (N TH_COUNT : ℕ) (is_inverse : Bool) (a : ℕ → ℂ) : ℕ → ℂ :=
  ((List.range TH_COUNT).reverse).foldl
    (fun acc th_index =>
      mergePartition N TH_COUNT th_index
        (workerRows is_inverse N TH_COUNT (partitionCopy N TH_COUNT th_index a)) acc) a

/-- Reference for the refinement claim, following the spec's words: apply
the sequential single-row transform to every row of the `N×N` buffer in
sequence on one thread. -/
def seqRowTransform (is_inverse : Bool) (N : ℕ) (a : ℕ → ℂ) : ℕ → ℂ :=
  (List.range N).foldl (fun a r => sliceTransform is_inverse N (r * N) a) a

/-- Modelled from the spec: each worker's one-shot channel either delivers
the partition buffer or is found closed (worker failure); `recv().unwrap()`
aborts on a closed channel, modelled as `Option` propagation through the
merge fold. -/
def horizontal_square_fft_recv (N TH_COUNT : ℕ) (deliver : ℕ → Option (ℕ → ℂ))
    (a : ℕ → ℂ) : Option (ℕ → ℂ) :=
  ((List.range TH_COUNT).reverse).foldl
    (fun acc th_index =>
      acc.bind (fun arr => (deliver th_index).map
        (fun v => mergePartition N TH_COUNT th_index v arr)))
    (some a)

end

theorem swapAt_fst {α : Type} (a : ℕ → α) (p q : ℕ) : swapAt a p q p = a q := by
  simp [swapAt]

theorem swapAt_snd {α : Type} (a : ℕ → α) (p q : ℕ) : swapAt a p q q = a p := by
  unfold swapAt
  by_cases h : q = p <;> simp [h]

theorem swapAt_other {α : Type} (a : ℕ → α) (p q r : ℕ) (hp : r ≠ p) (hq : r ≠ q) :
    swapAt a p q r = a r := by
  simp [swapAt, hp, hq]

theorem swapFold_nil {α : Type} (a : ℕ → α) : swapFold [] a = a := rfl

theorem swapFold_cons {α : Type} (pq : ℕ × ℕ) (L : List (ℕ × ℕ)) (a : ℕ → α) :
    swapFold (pq :: L) a = swapFold L (swapAt a pq.1 pq.2) := rfl

theorem swapFold_append {α : Type} (L₁ L₂ : List (ℕ × ℕ)) (a : ℕ → α) :
    swapFold (L₁ ++ L₂) a = swapFold L₂ (swapFold L₁ a) := by
  simp [swapFold, List.foldl_append]

/-- A position mentioned by no swap in the list is left unchanged. -/
theorem swapFold_notMem {α : Type} (L : List (ℕ × ℕ)) (a : ℕ → α) (r : ℕ)
    (h : ∀ pq ∈ L, r ≠ pq.1 ∧ r ≠ pq.2) : swapFold L a r = a r := by
  induction L generalizing a with
  | nil => rfl
  | cons pq L ih =>
      rw [swapFold_cons, ih _ (fun x hx => h x (List.mem_cons_of_mem _ hx)),
        swapAt_other a pq.1 pq.2 r (h pq (List.mem_cons_self _ _)).1
          (h pq (List.mem_cons_self _ _)).2]

/-- If the pair `(p, q)` occurs once in the list and neither `p` nor `q` is
mentioned by any other swap, the fold swaps exactly that pair. -/
theorem swapFold_split {α : Type} (A B : List (ℕ × ℕ)) (p q : ℕ) (a : ℕ → α)
    (hp : ∀ pq ∈ A ++ B, p ≠ pq.1 ∧ p ≠ pq.2)
    (hq : ∀ pq ∈ A ++ B, q ≠ pq.1 ∧ q ≠ pq.2) :
    swapFold (A ++ (p, q) :: B) a p = a q ∧ swapFold (A ++ (p, q) :: B) a q = a p := by
  have hpA : ∀ pq ∈ A, p ≠ pq.1 ∧ p ≠ pq.2 :=
    fun x hx => hp x (List.mem_append_left _ hx)
  have hpB : ∀ pq ∈ B, p ≠ pq.1 ∧ p ≠ pq.2 :=
    fun x hx => hp x (List.mem_append_right _ hx)
  have hqA : ∀ pq ∈ A, q ≠ pq.1 ∧ q ≠ pq.2 :=
    fun x hx => hq x (List.mem_append_left _ hx)
  have hqB : ∀ pq ∈ B, q ≠ pq.1 ∧ q ≠ pq.2 :=
    fun x hx => hq x (List.mem_append_right _ hx)
  rw [swapFold_append, swapFold_cons]
  constructor
  · rw [swapFold_notMem B _ p hpB, swapAt_fst, swapFold_notMem A a q hqA]
  · rw [swapFold_notMem B _ q hqB, swapAt_snd, swapFold_notMem A a p hpA]

theorem bitRevAux_lt (m : ℕ) : ∀ t i, bitRevAux m t i < 2 ^ m := by
  induction m with
  | zero => intro t i; simp [bitRevAux]
  | succ m ih =>
      intro t i
      have h₁ : i / 2 ^ t % 2 ≤ 1 := Nat.lt_succ_iff.mp (Nat.mod_lt _ (by norm_num))
      have h₂ := ih (t + 1) i
      have : 2 ^ m * (i / 2 ^ t % 2) ≤ 2 ^ m := by
        calc 2 ^ m * (i / 2 ^ t % 2) ≤ 2 ^ m * 1 := Nat.mul_le_mul_left _ h₁
        _ = 2 ^ m := Nat.mul_one _
      calc bitRevAux (m + 1) t i = 2 ^ m * (i / 2 ^ t % 2) + bitRevAux m (t + 1) i := rfl
      _ < 2 ^ m + 2 ^ m := by omega
      _ = 2 ^ (m + 1) := by ring

theorem bitRev_lt (k i : ℕ) : bitRev k i < 2 ^ k := bitRevAux_lt k 0 i

theorem div_pow_succ_eq (i t : ℕ) : i / 2 ^ (t + 1) = i / 2 / 2 ^ t := by
  rw [pow_succ, mul_comm, Nat.div_div_eq_div_mul]

/-- Shifting the window one bit up is the same as halving the input. -/
theorem bitRevAux_shift (m : ℕ) : ∀ t i, bitRevAux m (t + 1) i = bitRevAux m t (i / 2) := by
  induction m with
  | zero => intro t i; rfl
  | succ m ih =>
      intro t i
      show 2 ^ m * (i / 2 ^ (t + 1) % 2) + bitRevAux m (t + 2) i
          = 2 ^ m * (i / 2 / 2 ^ t % 2) + bitRevAux m (t + 1) (i / 2)
      rw [ih (t + 1) i, div_pow_succ_eq]

/-- Peeling the highest bit of the reversed window instead of the lowest. -/
theorem bitRevAux_succ_right (m : ℕ) :
    ∀ t i, bitRevAux (m + 1) t i = 2 * bitRevAux m t i + i / 2 ^ (t + m) % 2 := by
  induction m with
  | zero =>
      intro t i
      show 2 ^ 0 * (i / 2 ^ t % 2) + 0 = 2 * 0 + i / 2 ^ (t + 0) % 2
      simp
  | succ m ih =>
      intro t i
      show 2 ^ (m + 1) * (i / 2 ^ t % 2) + bitRevAux (m + 1) (t + 1) i
          = 2 * (2 ^ m * (i / 2 ^ t % 2) + bitRevAux m (t + 1) i) + i / 2 ^ (t + (m + 1)) % 2
      rw [ih (t + 1) i]
      have ht : t + 1 + m = t + (m + 1) := by omega
      rw [ht, pow_succ]
      ring

/-- Function `bitRevAux m t` only reads bits `t, …, t+m-1`: adding a multiple of
`2 ^ (t + m)` does not change the result. -/
theorem bitRevAux_add_high (m : ℕ) :
    ∀ t i c, bitRevAux m t (c * 2 ^ (t + m) + i) = bitRevAux m t i := by
  induction m with
  | zero => intro t i c; rfl
  | succ m ih =>
      intro t i c
      show 2 ^ m * ((c * 2 ^ (t + (m + 1)) + i) / 2 ^ t % 2) + bitRevAux m (t + 1) (c * 2 ^ (t + (m + 1)) + i)
          = 2 ^ m * (i / 2 ^ t % 2) + bitRevAux m (t + 1) i
      have h₁ : (c * 2 ^ (t + (m + 1)) + i) / 2 ^ t = c * 2 ^ (m + 1) + i / 2 ^ t := by
        have he : c * 2 ^ (t + (m + 1)) = 2 ^ t * (c * 2 ^ (m + 1)) := by ring
        rw [he, Nat.mul_add_div (Nat.pos_pow_of_pos t (by norm_num))]
      have h₂ : (c * 2 ^ (m + 1) + i / 2 ^ t) % 2 = i / 2 ^ t % 2 := by
        have : c * 2 ^ (m + 1) = c * 2 ^ m * 2 := by ring
        omega
      have h₃ : c * 2 ^ (t + (m + 1)) + i = c * 2 ^ (t + 1 + m) + i := by
        have : t + (m + 1) = t + 1 + m := by omega
        rw [this]
      rw [h₁, h₂, h₃, ih (t + 1) i c]

/-- Low-bit recursion for `bitRev`. -/
theorem bitRev_succ_low (k i : ℕ) :
    bitRev (k + 1) i = 2 ^ k * (i % 2) + bitRev k (i / 2) := by
  show 2 ^ k * (i / 2 ^ 0 % 2) + bitRevAux k 1 i = 2 ^ k * (i % 2) + bitRev k (i / 2)
  rw [bitRevAux_shift k 0 i]
  simp [bitRev]

/-- Bit reversal of `k` bits is an involution below `2 ^ k`. -/
theorem bitRev_bitRev (k : ℕ) : ∀ i, i < 2 ^ k → bitRev k (bitRev k i) = i := by
  induction k with
  | zero =>
      intro i hi
      interval_cases i
      rfl
  | succ k ih =>
      intro i hi
      rw [bitRev_succ_low k i]
      have hrl := bitRev_lt k (i / 2)
      have key : bitRev (k + 1) (2 ^ k * (i % 2) + bitRev k (i / 2))
          = 2 * bitRev k (bitRev k (i / 2)) + (i % 2) := by
        have hB := bitRevAux_succ_right k 0 (2 ^ k * (i % 2) + bitRev k (i / 2))
        have hhigh := bitRevAux_add_high k 0 (bitRev k (i / 2)) (i % 2)
        have hzk : (0 : ℕ) + k = k := by omega
        rw [hzk] at hB hhigh
        have hdiv : (i % 2 * 2 ^ k + bitRev k (i / 2)) / 2 ^ k % 2 = i % 2 := by
          rw [mul_comm, Nat.mul_add_div (Nat.pos_pow_of_pos k (by norm_num)),
            Nat.div_eq_of_lt hrl]
          omega
        calc bitRev (k + 1) (2 ^ k * (i % 2) + bitRev k (i / 2))
            = 2 * bitRevAux k 0 (2 ^ k * (i % 2) + bitRev k (i / 2))
              + (2 ^ k * (i % 2) + bitRev k (i / 2)) / 2 ^ k % 2 := hB
        _ = 2 * bitRevAux k 0 ((i % 2) * 2 ^ k + bitRev k (i / 2))
              + ((i % 2) * 2 ^ k + bitRev k (i / 2)) / 2 ^ k % 2 := by rw [mul_comm (2 ^ k)]
        _ = 2 * bitRev k (bitRev k (i / 2)) + (i % 2) := by rw [hhigh, hdiv]; rfl
      rw [key, ih (i / 2) (by omega)]
      omega

theorem pow_shiftRight (k s : ℕ) (h : s ≤ k) : (2 ^ k) >>> s = 2 ^ (k - s) := by
  rw [Nat.shiftRight_eq_div_pow, Nat.pow_div h (by norm_num)]

theorem and_two_pow_div (i t : ℕ) : (i &&& 2 ^ t) / 2 ^ t = i / 2 ^ t % 2 := by
  rw [Nat.and_two_pow, Nat.mul_div_cancel _ (Nat.pos_pow_of_pos t (by norm_num))]
  rcases Nat.mod_two_eq_zero_or_one (i / 2 ^ t) with h | h <;>
    simp [Nat.testBit_to_div_mod, h]

/-- The inner loop of `reverse_bit_sort` computes the reversal of the
remaining bit window. -/
theorem revLoop_spec (k i : ℕ) :
    ∀ m t rev, t + m = k →
      revLoop (2 ^ k) i (2 ^ t) ((2 ^ k) >>> (t + 1)) rev = rev + bitRevAux m t i := by
  intro m
  induction m with
  | zero =>
      intro t rev ht
      rw [revLoop]
      have : ¬ (2 ^ t < 2 ^ k ∧ 0 < 2 ^ t) := by
        intro hc
        exact absurd (Nat.pow_lt_pow_iff_right (a := 2) (by norm_num) |>.mp hc.1) (by omega)
      rw [dif_neg this]
      simp [bitRevAux]
  | succ m ih =>
      intro t rev ht
      rw [revLoop]
      have hcond : 2 ^ t < 2 ^ k ∧ 0 < 2 ^ t :=
        ⟨Nat.pow_lt_pow_right (by norm_num) (by omega), Nat.pos_pow_of_pos t (by norm_num)⟩
      rw [dif_pos hcond]
      have h₁ : (2 ^ t) <<< 1 = 2 ^ (t + 1) := by
        rw [Nat.shiftLeft_eq, pow_one, ← pow_succ]
      have h₂ : ((2 ^ k) >>> (t + 1)) >>> 1 = (2 ^ k) >>> (t + 1 + 1) := by
        rw [← Nat.shiftRight_add]
      have h₃ : (2 ^ k) >>> (t + 1) = 2 ^ m := by
        rw [pow_shiftRight k (t + 1) (by omega)]
        congr 1
        omega
      rw [h₁, h₂, ih (t + 1) _ (by omega), h₃, and_two_pow_div]
      show rev + 2 ^ m * (i / 2 ^ t % 2) + bitRevAux m (t + 1) i
          = rev + (2 ^ m * (i / 2 ^ t % 2) + bitRevAux m (t + 1) i)
      rw [Nat.add_assoc]

/-- Value `rev(i)` computed by the source loop is the reversal of the low `k`
bits of `i`, when `n = 2 ^ k`. -/
theorem revBits_eq_bitRev (k i : ℕ) : revBits (2 ^ k) i = bitRev k i := by
  have h := revLoop_spec k i k 0 0 (by omega)
  simpa [revBits, pow_zero] using h

theorem foldl_revSortStep_eq_swapFold {α : Type} (n : ℕ) (L : List ℕ) :
    ∀ a : ℕ → α, L.foldl (revSortStep n) a = swapFold (L.filterMap (revPairOpt n)) a := by
  induction L with
  | nil => intro a; rfl
  | cons i L ih =>
      intro a
      rw [List.foldl_cons, List.filterMap_cons]
      by_cases h : revBits n i ≥ i
      · have h₁ : revPairOpt n i = some (i, revBits n i) := by simp [revPairOpt, h]
        have h₂ : revSortStep n a i = swapAt a i (revBits n i) := by simp [revSortStep, h]
        rw [h₁, h₂, swapFold_cons, ih]
      · have h₁ : revPairOpt n i = none := by simp [revPairOpt, h]
        have h₂ : revSortStep n a i = a := by simp [revSortStep, h]
        rw [h₁, h₂, ih]

theorem reverse_bit_sort_eq_swapFold {α : Type} (a : ℕ → α) (n : ℕ) :
    reverse_bit_sort a n = swapFold (revPairs n) a :=
  foldl_revSortStep_eq_swapFold n (List.range n) a

theorem mem_revPairs (k : ℕ) (pq : ℕ × ℕ) (h : pq ∈ revPairs (2 ^ k)) :
    ∃ i, i < 2 ^ k ∧ i ≤ bitRev k i ∧ pq = (i, bitRev k i) := by
  rw [revPairs, List.mem_filterMap] at h
  obtain ⟨i, hi, hf⟩ := h
  rw [List.mem_range] at hi
  rw [revPairOpt, revBits_eq_bitRev] at hf
  by_cases hc : bitRev k i ≥ i
  · rw [if_pos hc] at hf
    exact ⟨i, hi, hc, (Option.some_inj.mp hf).symm⟩
  · rw [if_neg hc] at hf
    exact absurd hf (Option.noConfusion)

/-- Splitting the swap list of `reverse_bit_sort` around the swap emitted
at index `i₀`. -/
theorem revPairs_split (k i₀ : ℕ) (hi₀ : i₀ < 2 ^ k) (hle : i₀ ≤ bitRev k i₀) :
    ∃ A B, revPairs (2 ^ k) = A ++ (i₀, bitRev k i₀) :: B ∧
      ∀ pq ∈ A ++ B, ∃ i, i < 2 ^ k ∧ i ≠ i₀ ∧ i ≤ bitRev k i ∧ pq = (i, bitRev k i) := by
  have hrange : List.range (2 ^ k)
      = (List.range i₀ ++ [i₀]) ++ (List.range (2 ^ k - (i₀ + 1))).map ((i₀ + 1) + ·) := by
    rw [← List.range_succ, ← List.range_add]
    congr 1
    omega
  have hmid : revPairOpt (2 ^ k) i₀ = some (i₀, bitRev k i₀) := by
    rw [revPairOpt, revBits_eq_bitRev, if_pos hle]
  refine ⟨(List.range i₀).filterMap (revPairOpt (2 ^ k)),
    ((List.range (2 ^ k - (i₀ + 1))).map ((i₀ + 1) + ·)).filterMap (revPairOpt (2 ^ k)),
    ?_, ?_⟩
  · rw [revPairs, hrange, List.filterMap_append, List.filterMap_append]
    simp [hmid]
  · intro pq hpq
    rw [List.mem_append] at hpq
    rcases hpq with hA | hB
    · rw [List.mem_filterMap] at hA
      obtain ⟨i, hi, hf⟩ := hA
      rw [List.mem_range] at hi
      have hmem : pq ∈ revPairs (2 ^ k) := by
        rw [revPairs, List.mem_filterMap]
        exact ⟨i, by rw [List.mem_range]; omega, hf⟩
      obtain ⟨i', hi', hle', rfl⟩ := mem_revPairs k pq hmem
      rw [revPairOpt, revBits_eq_bitRev] at hf
      by_cases hc : bitRev k i ≥ i
      · rw [if_pos hc] at hf
        have : i = i' := by
          have := Option.some_inj.mp hf
          exact (congrArg Prod.fst this)
        exact ⟨i', hi', by omega, hle', rfl⟩
      · rw [if_neg hc] at hf
        exact absurd hf (Option.noConfusion)
    · rw [List.mem_filterMap] at hB
      obtain ⟨i, hi, hf⟩ := hB
      rw [List.mem_map] at hi
      obtain ⟨x, hx, rfl⟩ := hi
      rw [List.mem_range] at hx
      rw [revPairOpt, revBits_eq_bitRev] at hf
      by_cases hc : bitRev k (i₀ + 1 + x) ≥ i₀ + 1 + x
      · rw [if_pos hc] at hf
        refine ⟨i₀ + 1 + x, by omega, by omega, hc, (Option.some_inj.mp hf).symm⟩
      · rw [if_neg hc] at hf
        exact absurd hf (Option.noConfusion)

theorem bitRev_inj (k i j : ℕ) (hi : i < 2 ^ k) (hj : j < 2 ^ k)
    (h : bitRev k i = bitRev k j) : i = j := by
  rw [← bitRev_bitRev k i hi, h, bitRev_bitRev k j hj]

/-- Pointwise characterisation of `reverse_bit_sort` when the size is
`2 ^ k`: positions below the size hold the bit-reversed elements, positions
at or above it are untouched. -/
theorem reverse_bit_sort_apply {α : Type} (a : ℕ → α) (k p : ℕ) :
    reverse_bit_sort a (2 ^ k) p = if p < 2 ^ k then a (bitRev k p) else a p := by
  rw [reverse_bit_sort_eq_swapFold]
  by_cases hp : p < 2 ^ k
  · rw [if_pos hp]
    by_cases hpq : p ≤ bitRev k p
    · obtain ⟨A, B, hsplit, hAB⟩ := revPairs_split k p hp hpq
      have hp' : ∀ pq ∈ A ++ B, p ≠ pq.1 ∧ p ≠ pq.2 := by
        intro pq hmm
        obtain ⟨i, hi, hne, hle', rfl⟩ := hAB pq hmm
        refine ⟨fun hc => hne (by omega), fun hc => ?_⟩
        replace hc : p = bitRev k i := hc
        have hiq : i = bitRev k p := by
          rw [← bitRev_bitRev k i hi, ← hc]
        have : i ≤ p := by
          have := hle'
          rw [hiq, bitRev_bitRev k p hp] at this
          omega
        omega
      have hq' : ∀ pq ∈ A ++ B, bitRev k p ≠ pq.1 ∧ bitRev k p ≠ pq.2 := by
        intro pq hmm
        obtain ⟨i, hi, hne, hle', rfl⟩ := hAB pq hmm
        constructor
        · intro hc
          replace hc : bitRev k p = i := hc
          have : i ≤ p := by
            have := hle'
            rw [← hc, bitRev_bitRev k p hp] at this
            omega
          omega
        · intro hc
          replace hc : bitRev k p = bitRev k i := hc
          exact hne (bitRev_inj k i p hi hp hc.symm)
      rw [hsplit]
      exact (swapFold_split A B p (bitRev k p) a hp' hq').1
    · have hq : bitRev k p < 2 ^ k := bitRev_lt k p
      have hqrev : bitRev k (bitRev k p) = p := bitRev_bitRev k p hp
      have hqle : bitRev k p ≤ bitRev k (bitRev k p) := by omega
      obtain ⟨A, B, hsplit, hAB⟩ := revPairs_split k (bitRev k p) hq hqle
      have hp' : ∀ pq ∈ A ++ B, p ≠ pq.1 ∧ p ≠ pq.2 := by
        intro pq hmm
        obtain ⟨i, hi, hne, hle', rfl⟩ := hAB pq hmm
        constructor
        · intro hc
          replace hc : p = i := hc
          rw [← hc] at hle'
          omega
        · intro hc
          replace hc : p = bitRev k i := hc
          exact hne (by rw [← bitRev_bitRev k i hi, ← hc])
      have hq' : ∀ pq ∈ A ++ B, bitRev k p ≠ pq.1 ∧ bitRev k p ≠ pq.2 := by
        intro pq hmm
        obtain ⟨i, hi, hne, hle', rfl⟩ := hAB pq hmm
        refine ⟨fun hc => hne hc.symm, fun hc => ?_⟩
        replace hc : bitRev k p = bitRev k i := hc
        have hip : i = p := bitRev_inj k i p hi hp (by rw [← hc])
        rw [hip] at hle'
        omega
      rw [hsplit, hqrev] at *
      exact (swapFold_split A B (bitRev k p) p a hq' hp').2
  · rw [if_neg hp]
    apply swapFold_notMem
    intro pq hmm
    obtain ⟨i, hi, _, rfl⟩ := mem_revPairs k pq hmm
    exact ⟨by simp; omega, by have := bitRev_lt k i; simp; omega⟩

/-!
## Twiddle factors and the reference Fourier sum
-/

theorem sgnOf_false : sgnOf false = 1 := rfl

theorem sgnOf_true : sgnOf true = -1 := rfl

/-- The twiddle factor of the butterfly is the `i`-th power of the
direction's root of unity. -/
theorem twiddle_eq_pow (is_inverse : Bool) (bs i : ℕ) :
    twiddle is_inverse bs i = (omegaC is_inverse bs) ^ i := by
  rw [omegaC, ← Complex.exp_nat_mul]
  have harg : (i : ℂ) * (((sgnOf is_inverse * (2 * Real.pi / bs) : ℝ) : ℂ) * Complex.I)
      = ((sgnOf is_inverse * (2 * Real.pi * i / bs) : ℝ) : ℂ) * Complex.I := by
    push_cast
    ring
  rw [harg, Complex.exp_mul_I, ← Complex.ofReal_cos, ← Complex.ofReal_sin]
  cases is_inverse with
  | false =>
      rw [twiddle, sgnOf_false, one_mul, one_mul, Complex.mk_eq_add_mul_I]
  | true =>
      rw [twiddle, sgnOf_true, neg_one_mul, neg_one_mul, Real.cos_neg, Real.sin_neg,
        Complex.mk_eq_add_mul_I, Complex.ofReal_neg]

/-- Squaring the root of block size `2H` gives the root of block size `H`. -/
theorem omegaC_sq (is_inverse : Bool) (H : ℕ) (hH : 0 < H) :
    (omegaC is_inverse (2 * H)) ^ 2 = omegaC is_inverse H := by
  rw [omegaC, omegaC, ← Complex.exp_nat_mul]
  congr 1
  push_cast
  have hne : (H : ℂ) ≠ 0 := by
    simpa using Nat.cast_ne_zero.mpr (by omega : H ≠ 0)
  field_simp
  ring

/-- The root of block size `H` has order dividing `H`. -/
theorem omegaC_pow_self (is_inverse : Bool) (H : ℕ) (hH : 0 < H) :
    (omegaC is_inverse H) ^ H = 1 := by
  rw [omegaC, ← Complex.exp_nat_mul]
  have hne : (H : ℂ) ≠ 0 := by
    simpa using Nat.cast_ne_zero.mpr (by omega : H ≠ 0)
  have harg : (H : ℂ) * (((sgnOf is_inverse * (2 * Real.pi / H) : ℝ) : ℂ) * Complex.I)
      = ((sgnOf is_inverse : ℝ) : ℂ) * (2 * (Real.pi : ℂ) * Complex.I) := by
    push_cast
    field_simp
    ring
  rw [harg]
  cases is_inverse with
  | false =>
      rw [sgnOf_false]
      push_cast
      rw [one_mul, Complex.exp_two_pi_mul_I]
  | true =>
      rw [sgnOf_true]
      push_cast
      rw [neg_one_mul, Complex.exp_neg, Complex.exp_two_pi_mul_I, inv_one]

/-- The half-way power of the root of block size `2H` is `-1`. -/
theorem omegaC_pow_half (is_inverse : Bool) (H : ℕ) (hH : 0 < H) :
    (omegaC is_inverse (2 * H)) ^ H = -1 := by
  rw [omegaC, ← Complex.exp_nat_mul]
  have hne : (H : ℂ) ≠ 0 := by
    simpa using Nat.cast_ne_zero.mpr (by omega : H ≠ 0)
  have harg : (H : ℂ) * (((sgnOf is_inverse * (2 * Real.pi / (2 * H : ℕ)) : ℝ) : ℂ) * Complex.I)
      = ((sgnOf is_inverse : ℝ) : ℂ) * ((Real.pi : ℂ) * Complex.I) := by
    push_cast
    field_simp
    ring
  rw [harg]
  cases is_inverse with
  | false =>
      rw [sgnOf_false]
      push_cast
      rw [one_mul, Complex.exp_pi_mul_I]
  | true =>
      rw [sgnOf_true]
      push_cast
      rw [neg_one_mul, Complex.exp_neg, Complex.exp_pi_mul_I]
      norm_num

theorem sum_range_even_odd (H : ℕ) (f : ℕ → ℂ) :
    ∑ m ∈ Finset.range (2 * H), f m
      = ∑ m ∈ Finset.range H, f (2 * m) + ∑ m ∈ Finset.range H, f (2 * m + 1) := by
  induction H with
  | zero => simp
  | succ H ih =>
      have h2 : 2 * (H + 1) = 2 * H + 1 + 1 := by ring
      rw [h2, Finset.sum_range_succ, Finset.sum_range_succ,
        Finset.sum_range_succ (fun m => f (2 * m)), Finset.sum_range_succ (fun m => f (2 * m + 1)),
        ih]
      ring

/-- Decimation-in-time split of the Fourier sum, first half of the block:
row `i`. -/
theorem dftG_split_low (is_inverse : Bool) (H : ℕ) (hH : 0 < H) (y : ℕ → ℂ) (i : ℕ) :
    dftG is_inverse (2 * H) y i
      = dftG is_inverse H (fun m => y (2 * m)) i
        + (omegaC is_inverse (2 * H)) ^ i * dftG is_inverse H (fun m => y (2 * m + 1)) i := by
  rw [dftG, dftG, dftG, sum_range_even_odd, Finset.mul_sum]
  congr 1
  · apply Finset.sum_congr rfl
    intro m _
    congr 1
    have he : i * (2 * m) = 2 * (i * m) := by ring
    rw [he, pow_mul, omegaC_sq is_inverse H hH]
  · apply Finset.sum_congr rfl
    intro m _
    have he : i * (2 * m + 1) = i + 2 * (i * m) := by ring
    rw [he, pow_add, pow_mul, omegaC_sq is_inverse H hH]
    ring

/-- Decimation-in-time split, second half of the block: row `i + H`. -/
theorem dftG_split_high (is_inverse : Bool) (H : ℕ) (hH : 0 < H) (y : ℕ → ℂ) (i : ℕ) :
    dftG is_inverse (2 * H) y (i + H)
      = dftG is_inverse H (fun m => y (2 * m)) i
        - (omegaC is_inverse (2 * H)) ^ i * dftG is_inverse H (fun m => y (2 * m + 1)) i := by
  have hper : ∀ z : ℕ → ℂ, dftG is_inverse H z (i + H) = dftG is_inverse H z i := by
    intro z
    rw [dftG, dftG]
    apply Finset.sum_congr rfl
    intro m _
    have hm1 : omegaC is_inverse H ^ (H * m) = 1 := by
      rw [pow_mul, omegaC_pow_self is_inverse H hH, one_pow]
    have he : (i + H) * m = i * m + H * m := by ring
    rw [he, pow_add, hm1, mul_one]
  have hsplit := dftG_split_low is_inverse H hH y (i + H)
  rw [hsplit, hper, hper]
  have hpow : (omegaC is_inverse (2 * H)) ^ (i + H)
      = -(omegaC is_inverse (2 * H)) ^ i := by
    rw [pow_add, omegaC_pow_half is_inverse H hH]
    ring
  rw [hpow]
  ring

/-!
## The butterfly loops
-/

theorem two_mul_div_two (H : ℕ) : 2 * H / 2 = H := Nat.mul_div_cancel_left H (by norm_num)

theorem butterflyStep_fst (is_inverse : Bool) (size H j i : ℕ) (a : ℕ → ℂ) :
    butterflyStep is_inverse size (2 * H) j i a (j + i)
      = (sFactor is_inverse size (2 * H) : ℂ)
        * (a (j + i) + a (j + i + H) * twiddle is_inverse (2 * H) i) := by
  rw [butterflyStep]
  simp only [two_mul_div_two]
  simp

theorem butterflyStep_snd (is_inverse : Bool) (size H j i : ℕ) (hH : 0 < H) (a : ℕ → ℂ) :
    butterflyStep is_inverse size (2 * H) j i a (j + i + H)
      = (sFactor is_inverse size (2 * H) : ℂ)
        * (a (j + i) - a (j + i + H) * twiddle is_inverse (2 * H) i) := by
  rw [butterflyStep]
  simp only [two_mul_div_two]
  rw [if_neg (by omega)]
  simp

theorem butterflyStep_other (is_inverse : Bool) (size H j i q : ℕ)
    (h₁ : q ≠ j + i) (h₂ : q ≠ j + i + H) (a : ℕ → ℂ) :
    butterflyStep is_inverse size (2 * H) j i a q = a q := by
  rw [butterflyStep]
  simp only [two_mul_div_two]
  rw [if_neg h₁, if_neg h₂]

/-- Invariant of the partial `for i in 0..block_size/2` fold: the first `m`
butterflies are done, every other position is untouched. -/
theorem innerFold_spec (is_inverse : Bool) (size H j : ℕ) (hH : 0 < H) (a : ℕ → ℂ) :
    ∀ m, m ≤ H →
      (∀ i, i < m →
        ((List.range m).foldl (fun b i => butterflyStep is_inverse size (2 * H) j i b) a (j + i)
            = (sFactor is_inverse size (2 * H) : ℂ)
              * (a (j + i) + a (j + i + H) * twiddle is_inverse (2 * H) i))
        ∧ ((List.range m).foldl (fun b i => butterflyStep is_inverse size (2 * H) j i b) a (j + i + H)
            = (sFactor is_inverse size (2 * H) : ℂ)
              * (a (j + i) - a (j + i + H) * twiddle is_inverse (2 * H) i)))
      ∧ (∀ q, (∀ i, i < m → q ≠ j + i ∧ q ≠ j + i + H) →
          (List.range m).foldl (fun b i => butterflyStep is_inverse size (2 * H) j i b) a q = a q) := by
  intro m
  induction m with
  | zero =>
      intro _
      exact ⟨fun i hi => absurd hi (by omega), fun q _ => rfl⟩
  | succ m ih =>
      intro hm
      obtain ⟨ih1, ih2⟩ := ih (by omega)
      rw [List.range_succ]
      simp only [List.foldl_append, List.foldl_cons, List.foldl_nil]
      have huv : (List.range m).foldl (fun b i => butterflyStep is_inverse size (2 * H) j i b) a (j + m)
          = a (j + m) := ih2 (j + m) (fun i hi => ⟨by omega, by omega⟩)
      have huw : (List.range m).foldl (fun b i => butterflyStep is_inverse size (2 * H) j i b) a (j + m + H)
          = a (j + m + H) := ih2 (j + m + H) (fun i hi => ⟨by omega, by omega⟩)
      refine ⟨?_, ?_⟩
      · intro i hi
        by_cases hcase : i = m
        · subst hcase
          rw [butterflyStep_fst, butterflyStep_snd is_inverse size H j i hH, huv, huw]
          exact ⟨rfl, rfl⟩
        · have hi' : i < m := by omega
          constructor
          · rw [butterflyStep_other is_inverse size H j m (j + i) (by omega) (by omega)]
            exact (ih1 i hi').1
          · rw [butterflyStep_other is_inverse size H j m (j + i + H) (by omega) (by omega)]
            exact (ih1 i hi').2
      · intro q hq
        rw [butterflyStep_other is_inverse size H j m q (hq m (by omega)).1 (hq m (by omega)).2]
        exact ih2 q (fun i hi => hq i (by omega))

/-- What one full butterfly pass (`innerPass`) does to its block, and that
it leaves everything outside `[j, j + block_size)` unchanged. -/
theorem innerPass_spec (is_inverse : Bool) (size H j : ℕ) (hH : 0 < H) (a : ℕ → ℂ) :
    (∀ i, i < H →
      (innerPass is_inverse size (2 * H) j a (j + i)
          = (sFactor is_inverse size (2 * H) : ℂ)
            * (a (j + i) + a (j + i + H) * twiddle is_inverse (2 * H) i))
      ∧ (innerPass is_inverse size (2 * H) j a (j + i + H)
          = (sFactor is_inverse size (2 * H) : ℂ)
            * (a (j + i) - a (j + i + H) * twiddle is_inverse (2 * H) i)))
    ∧ (∀ q, q < j ∨ j + 2 * H ≤ q → innerPass is_inverse size (2 * H) j a q = a q) := by
  have h := innerFold_spec is_inverse size H j hH a H (le_refl H)
  rw [innerPass, two_mul_div_two]
  exact ⟨h.1, fun q hq => h.2 q (fun i hi => ⟨by omega, by omega⟩)⟩

/-- Invariant of the `while j < size` loop: positions before `j` and at or
beyond `size` are untouched, and every block at or after `j` that fits
below `size` receives its butterflies. -/
theorem blockLoop_spec (is_inverse : Bool) (size H : ℕ) (hH : 0 < H) (hdvd : 2 * H ∣ size) :
    ∀ n j a, size - j = n → 2 * H ∣ j →
      (∀ q, q < j → blockLoop is_inverse size (2 * H) j a q = a q)
      ∧ (∀ q, size ≤ q → blockLoop is_inverse size (2 * H) j a q = a q)
      ∧ (∀ b i, i < H → j ≤ 2 * H * b → 2 * H * b + 2 * H ≤ size →
          (blockLoop is_inverse size (2 * H) j a (2 * H * b + i)
            = (sFactor is_inverse size (2 * H) : ℂ)
              * (a (2 * H * b + i) + a (2 * H * b + i + H) * twiddle is_inverse (2 * H) i))
          ∧ (blockLoop is_inverse size (2 * H) j a (2 * H * b + i + H)
            = (sFactor is_inverse size (2 * H) : ℂ)
              * (a (2 * H * b + i) - a (2 * H * b + i + H) * twiddle is_inverse (2 * H) i))) := by
  intro n
  induction n using Nat.strong_induction_on with
  | _ n ihn =>
      intro j a hn hj
      by_cases hlt : j < size
      · have hstep : j + 2 * H ≤ size := by
          have h1 : 2 * H ∣ size - j := Nat.dvd_sub' hdvd hj
          have h2 : 2 * H ≤ size - j := Nat.le_of_dvd (by omega) h1
          omega
        rw [blockLoop, dif_pos ⟨hlt, by omega⟩]
        obtain ⟨IH1, IH2, IH3⟩ := ihn (size - (j + 2 * H)) (by omega) (j + 2 * H)
          (innerPass is_inverse size (2 * H) j a) rfl (by exact Nat.dvd_add hj ⟨1, by ring⟩)
        obtain ⟨IP1, IP2⟩ := innerPass_spec is_inverse size H j hH a
        refine ⟨?_, ?_, ?_⟩
        · intro q hq
          rw [IH1 q (by omega)]
          exact IP2 q (by omega)
        · intro q hq
          rw [IH2 q hq]
          exact IP2 q (by omega)
        · intro b i hi hjb hbs
          obtain ⟨c, rfl⟩ := hj
          have hcb : c ≤ b := by
            by_contra hcb
            push_neg at hcb
            have : 2 * H * b < 2 * H * c := (Nat.mul_lt_mul_left (by omega)).mpr hcb
            omega
          by_cases hcase : c = b
          · subst hcase
            constructor
            · rw [IH1 _ (by omega)]
              exact (IP1 i hi).1
            · rw [IH1 _ (by omega)]
              exact (IP1 i hi).2
          · have hcb' : c + 1 ≤ b := by omega
            have hfar : 2 * H * c + 2 * H ≤ 2 * H * b := by
              have := Nat.mul_le_mul_left (2 * H) hcb'
              calc 2 * H * c + 2 * H = 2 * H * (c + 1) := by ring
              _ ≤ 2 * H * b := this
            have e1 := (IH3 b i hi (by omega) hbs).1
            have e2 := (IH3 b i hi (by omega) hbs).2
            rw [IP2 _ (by omega), IP2 _ (by omega)] at e1 e2
            exact ⟨e1, e2⟩
      · rw [blockLoop, dif_neg (by omega)]
        refine ⟨fun q _ => rfl, fun q _ => rfl, ?_⟩
        intro b i hi hjb hbs
        exfalso
        omega

/-!
## The pass loop computes the Fourier sum
-/

theorem dftG_congr (is_inverse : Bool) (B r : ℕ) {y z : ℕ → ℂ} (h : ∀ m, y m = z m) :
    dftG is_inverse B y r = dftG is_inverse B z r :=
  Finset.sum_congr rfl (fun m _ => by rw [h m])

/-- Variant of `dftG_split_low` with explicitly given even and odd subsequences. -/
theorem dftG_split_low_eo (is_inverse : Bool) (H : ℕ) (hH : 0 < H) (y E O : ℕ → ℂ)
    (hE : ∀ m, y (2 * m) = E m) (hO : ∀ m, y (2 * m + 1) = O m) (i : ℕ) :
    dftG is_inverse (2 * H) y i
      = dftG is_inverse H E i + (omegaC is_inverse (2 * H)) ^ i * dftG is_inverse H O i := by
  have e1 : dftG is_inverse H (fun m => y (2 * m)) i = dftG is_inverse H E i :=
    dftG_congr is_inverse H i hE
  have e2 : dftG is_inverse H (fun m => y (2 * m + 1)) i = dftG is_inverse H O i :=
    dftG_congr is_inverse H i hO
  rw [dftG_split_low is_inverse H hH y i, e1, e2]

/-- Variant of `dftG_split_high` with explicitly given even and odd subsequences. -/
theorem dftG_split_high_eo (is_inverse : Bool) (H : ℕ) (hH : 0 < H) (y E O : ℕ → ℂ)
    (hE : ∀ m, y (2 * m) = E m) (hO : ∀ m, y (2 * m + 1) = O m) (i : ℕ) :
    dftG is_inverse (2 * H) y (i + H)
      = dftG is_inverse H E i - (omegaC is_inverse (2 * H)) ^ i * dftG is_inverse H O i := by
  have e1 : dftG is_inverse H (fun m => y (2 * m)) i = dftG is_inverse H E i :=
    dftG_congr is_inverse H i hE
  have e2 : dftG is_inverse H (fun m => y (2 * m + 1)) i = dftG is_inverse H O i :=
    dftG_congr is_inverse H i hO
  rw [dftG_split_high is_inverse H hH y i, e1, e2]

theorem sFactor_of_ne (is_inverse : Bool) (size bs : ℕ) (h : bs ≠ size) :
    sFactor is_inverse size bs = 1 := by
  rw [sFactor, if_neg]
  intro hc
  exact h hc.2

/-- One full pass at block size `2^(k-s)` turns the stage-`(s+1)` invariant
into the stage-`s` invariant, applying the pass's scale factor. -/
theorem blockPass_stage (is_inverse : Bool) (k s : ℕ) (x : ℕ → ℂ) (hsk : s + 1 ≤ k)
    (a : ℕ → ℂ)
    (ha : ∀ b r, b < 2 ^ (s + 1) → r < 2 ^ (k - (s + 1)) →
      a (2 ^ (k - (s + 1)) * b + r)
        = dftG is_inverse (2 ^ (k - (s + 1))) (fun m => x (2 ^ (s + 1) * m + bitRev (s + 1) b)) r) :
    (∀ q, 2 ^ k ≤ q → blockLoop is_inverse (2 ^ k) (2 * 2 ^ (k - (s + 1))) 0 a q = a q)
    ∧ (∀ b r, b < 2 ^ s → r < 2 ^ (k - s) →
        blockLoop is_inverse (2 ^ k) (2 * 2 ^ (k - (s + 1))) 0 a (2 ^ (k - s) * b + r)
          = (sFactor is_inverse (2 ^ k) (2 * 2 ^ (k - (s + 1))) : ℂ)
            * dftG is_inverse (2 ^ (k - s)) (fun m => x (2 ^ s * m + bitRev s b)) r) := by
  have hB : 0 < 2 ^ (k - (s + 1)) := Nat.pos_pow_of_pos _ (by norm_num)
  have hks : k - s = (k - (s + 1)) + 1 := by omega
  have hBB : 2 ^ (k - s) = 2 * 2 ^ (k - (s + 1)) := by
    rw [hks, pow_succ]
    ring
  have hdvd : 2 * 2 ^ (k - (s + 1)) ∣ 2 ^ k := by
    rw [← hBB]
    exact pow_dvd_pow 2 (by omega)
  obtain ⟨S1, S2, S3⟩ := blockLoop_spec is_inverse (2 ^ k) (2 ^ (k - (s + 1))) hB hdvd
    (2 ^ k - 0) 0 a rfl (Dvd.intro 0 rfl)
  refine ⟨fun q hq => S2 q hq, ?_⟩
  intro b r hb hr
  set B := 2 ^ (k - (s + 1)) with hBdef
  have hb2 : 2 * b < 2 ^ (s + 1) := by
    rw [pow_succ]
    omega
  have hb21 : 2 * b + 1 < 2 ^ (s + 1) := by
    rw [pow_succ]
    omega
  have hfit : 2 * B * b + 2 * B ≤ 2 ^ k := by
    have h1 : 2 * B * (b + 1) ≤ 2 * B * 2 ^ s := by
      apply Nat.mul_le_mul_left
      omega
    have h2 : 2 * B * 2 ^ s = 2 ^ k := by
      rw [hBdef, ← pow_succ']
      rw [← pow_add]
      congr 1
      omega
    calc 2 * B * b + 2 * B = 2 * B * (b + 1) := by ring
    _ ≤ 2 * B * 2 ^ s := h1
    _ = 2 ^ k := h2
  have hEfun : ∀ m, (fun m => x (2 ^ (s + 1) * m + bitRev (s + 1) (2 * b))) m
      = (fun m => x (2 ^ s * m + bitRev s b)) (2 * m) := by
    intro m
    show x (2 ^ (s + 1) * m + bitRev (s + 1) (2 * b)) = x (2 ^ s * (2 * m) + bitRev s b)
    congr 1
    rw [bitRev_succ_low s (2 * b), Nat.mul_mod_right, Nat.mul_div_cancel_left b (by norm_num),
      mul_zero, zero_add, pow_succ]
    ring
  have hOfun : ∀ m, (fun m => x (2 ^ (s + 1) * m + bitRev (s + 1) (2 * b + 1))) m
      = (fun m => x (2 ^ s * m + bitRev s b)) (2 * m + 1) := by
    intro m
    show x (2 ^ (s + 1) * m + bitRev (s + 1) (2 * b + 1)) = x (2 ^ s * (2 * m + 1) + bitRev s b)
    congr 1
    have hmod : (2 * b + 1) % 2 = 1 := by omega
    have hdiv : (2 * b + 1) / 2 = b := by omega
    rw [bitRev_succ_low s (2 * b + 1), hmod, hdiv, mul_one, pow_succ]
    ring
  rcases Nat.lt_or_ge r B with hcase | hcase
  · -- first half of the block
    have hpos : 2 ^ (k - s) * b + r = 2 * B * b + r := by
      rw [hBB]
    rw [hpos]
    have e := (S3 b r hcase (by omega) hfit).1
    rw [e]
    have hAE : a (2 * B * b + r)
        = dftG is_inverse B (fun m => x (2 ^ (s + 1) * m + bitRev (s + 1) (2 * b))) r := by
      have h1 : 2 * B * b + r = B * (2 * b) + r := by ring
      rw [h1]
      exact ha (2 * b) r hb2 hcase
    have hAO : a (2 * B * b + r + B)
        = dftG is_inverse B (fun m => x (2 ^ (s + 1) * m + bitRev (s + 1) (2 * b + 1))) r := by
      have h1 : 2 * B * b + r + B = B * (2 * b + 1) + r := by ring
      rw [h1]
      exact ha (2 * b + 1) r hb21 hcase
    have hlow : dftG is_inverse (2 ^ (k - s)) (fun m => x (2 ^ s * m + bitRev s b)) r
        = dftG is_inverse B (fun m => x (2 ^ (s + 1) * m + bitRev (s + 1) (2 * b))) r
          + (omegaC is_inverse (2 * B)) ^ r
            * dftG is_inverse B (fun m => x (2 ^ (s + 1) * m + bitRev (s + 1) (2 * b + 1))) r := by
      rw [hBB]
      exact dftG_split_low_eo is_inverse B hB _ _ _
        (fun m => (hEfun m).symm) (fun m => (hOfun m).symm) r
    rw [hAE, hAO, twiddle_eq_pow, hlow]
    ring
  · -- second half of the block
    obtain ⟨i, rfl⟩ : ∃ i, r = i + B := ⟨r - B, by omega⟩
    have hi : i < B := by
      rw [hBB] at hr
      omega
    have hpos : 2 ^ (k - s) * b + (i + B) = 2 * B * b + i + B := by
      rw [hBB]
      ring
    rw [hpos]
    have e := (S3 b i hi (by omega) hfit).2
    rw [e]
    have hAE : a (2 * B * b + i)
        = dftG is_inverse B (fun m => x (2 ^ (s + 1) * m + bitRev (s + 1) (2 * b))) i := by
      have h1 : 2 * B * b + i = B * (2 * b) + i := by ring
      rw [h1]
      exact ha (2 * b) i hb2 hi
    have hAO : a (2 * B * b + i + B)
        = dftG is_inverse B (fun m => x (2 ^ (s + 1) * m + bitRev (s + 1) (2 * b + 1))) i := by
      have h1 : 2 * B * b + i + B = B * (2 * b + 1) + i := by ring
      rw [h1]
      exact ha (2 * b + 1) i hb21 hi
    have hhigh : dftG is_inverse (2 ^ (k - s)) (fun m => x (2 ^ s * m + bitRev s b)) (i + B)
        = dftG is_inverse B (fun m => x (2 ^ (s + 1) * m + bitRev (s + 1) (2 * b))) i
          - (omegaC is_inverse (2 * B)) ^ i
            * dftG is_inverse B (fun m => x (2 ^ (s + 1) * m + bitRev (s + 1) (2 * b + 1))) i := by
      rw [hBB]
      exact dftG_split_high_eo is_inverse B hB _ _ _
        (fun m => (hEfun m).symm) (fun m => (hOfun m).symm) i
    rw [hAE, hAO, twiddle_eq_pow, hhigh]
    ring

/-- Running the pass loop from stage `t` (blocks of size `2^(k-t)` already
transformed) to completion computes the scaled full Fourier sum. -/
theorem passLoop_phase (is_inverse : Bool) (k : ℕ) (x : ℕ → ℂ) :
    ∀ t, 1 ≤ t → t ≤ k → ∀ a : ℕ → ℂ,
      (∀ b r, b < 2 ^ t → r < 2 ^ (k - t) →
        a (2 ^ (k - t) * b + r)
          = dftG is_inverse (2 ^ (k - t)) (fun m => x (2 ^ t * m + bitRev t b)) r) →
      (∀ q, 2 ^ k ≤ q → passLoop is_inverse (2 ^ k) (2 * 2 ^ (k - t)) a q = a q)
      ∧ (∀ r, r < 2 ^ k →
          passLoop is_inverse (2 ^ k) (2 * 2 ^ (k - t)) a r
            = (if is_inverse = true then (((2 ^ k : ℕ) : ℂ))⁻¹ else 1)
              * dftG is_inverse (2 ^ k) x r) := by
  intro t ht1
  induction t, ht1 using Nat.le_induction with
  | base =>
      intro htk a ha
      have hk1 : 1 ≤ k := htk
      have hbs : 2 * 2 ^ (k - 1) = 2 ^ k := by
        have h1 : 2 ^ ((k - 1) + 1) = 2 ^ (k - 1) * 2 := pow_succ 2 (k - 1)
        have h2 : (k - 1) + 1 = k := by omega
        rw [h2] at h1
        omega
      obtain ⟨U, P⟩ := blockPass_stage is_inverse k 0 x (by omega) a ha
      have hstep : passLoop is_inverse (2 ^ k) (2 * 2 ^ (k - 1)) a
          = blockLoop is_inverse (2 ^ k) (2 * 2 ^ (k - 1)) 0 a := by
        rw [passLoop, dif_pos ⟨by omega, by positivity⟩]
        rw [passLoop, dif_neg]
        intro hc
        have h1 := hc.1
        rw [hbs] at h1
        have h2 : 0 < 2 ^ k := Nat.pos_pow_of_pos _ (by norm_num)
        omega
      constructor
      · intro q hq
        rw [hstep]
        exact U q hq
      · intro r hr
        rw [hstep]
        have hP := P 0 r (by norm_num) hr
        have hpos : 2 ^ (k - 0) * 0 + r = r := by ring_nf
        rw [hpos] at hP
        rw [hP]
        have hsf : (sFactor is_inverse (2 ^ k) (2 * 2 ^ (k - (0 + 1))) : ℂ)
            = (if is_inverse = true then (((2 ^ k : ℕ) : ℂ))⁻¹ else 1) := by
          have hb : 2 * 2 ^ (k - (0 + 1)) = 2 ^ k := hbs
          rw [hb, sFactor]
          cases is_inverse with
          | false => simp
          | true =>
              rw [if_pos (And.intro rfl rfl)]
              push_cast
              rw [one_div]
              simp
        rw [hsf]
        have hdft : dftG is_inverse (2 ^ (k - 0)) (fun m => x (2 ^ 0 * m + bitRev 0 0)) r
            = dftG is_inverse (2 ^ k) x r := by
          have hk0 : k - 0 = k := rfl
          rw [hk0]
          apply dftG_congr
          intro m
          show x (2 ^ 0 * m + bitRev 0 0) = x m
          congr 1
          show 1 * m + 0 = m
          omega
        rw [hdft]
  | succ t ht ih =>
      intro htk a ha
      have hbs2 : 2 * 2 ^ (k - (t + 1)) * 2 = 2 * 2 ^ (k - t) := by
        have h1 : k - t = (k - (t + 1)) + 1 := by omega
        rw [h1, pow_succ]
        ring
      have hbslt : 2 * 2 ^ (k - (t + 1)) ≤ 2 ^ k := by
        have h1 : k - t = (k - (t + 1)) + 1 := by omega
        have h2 : 2 * 2 ^ (k - (t + 1)) = 2 ^ (k - t) := by
          rw [h1, pow_succ]
          ring
        rw [h2]
        exact Nat.pow_le_pow_right (by norm_num) (by omega)
      obtain ⟨U, P⟩ := blockPass_stage is_inverse k t x (by omega) a ha
      have hsf1 : sFactor is_inverse (2 ^ k) (2 * 2 ^ (k - (t + 1))) = 1 := by
        apply sFactor_of_ne
        have h1 : k - t = (k - (t + 1)) + 1 := by omega
        have h2 : 2 * 2 ^ (k - (t + 1)) = 2 ^ (k - t) := by
          rw [h1, pow_succ]
          ring
        rw [h2]
        intro hc
        have := Nat.pow_right_injective (le_refl 2) hc
        omega
      have ha' : ∀ b r, b < 2 ^ t → r < 2 ^ (k - t) →
          blockLoop is_inverse (2 ^ k) (2 * 2 ^ (k - (t + 1))) 0 a (2 ^ (k - t) * b + r)
            = dftG is_inverse (2 ^ (k - t)) (fun m => x (2 ^ t * m + bitRev t b)) r := by
        intro b r hb hr
        rw [P b r hb hr, hsf1]
        simp
      obtain ⟨IH1, IH2⟩ := ih (by omega)
        (blockLoop is_inverse (2 ^ k) (2 * 2 ^ (k - (t + 1))) 0 a) ha'
      have hunfold : passLoop is_inverse (2 ^ k) (2 * 2 ^ (k - (t + 1))) a
          = passLoop is_inverse (2 ^ k) (2 * 2 ^ (k - t))
              (blockLoop is_inverse (2 ^ k) (2 * 2 ^ (k - (t + 1))) 0 a) := by
        rw [passLoop, dif_pos ⟨hbslt, by positivity⟩, hbs2]
      constructor
      · intro q hq
        rw [hunfold, IH1 q hq]
        exact U q hq
      · intro r hr
        rw [hunfold]
        exact IH2 r hr

/-- Theorem: `base_f32_fft_in_place` on an array of size `2^k` computes the Fourier
sum in the direction's sign convention, scaled by `1/2^k` exactly when
inverse; positions at or above the size are untouched. -/
theorem base_fft_computes_dft (is_inverse : Bool) (k : ℕ) (x : ℕ → ℂ) :
    (∀ r, r < 2 ^ k →
      base_f32_fft_in_place x (2 ^ k) is_inverse r
        = (if is_inverse = true then (((2 ^ k : ℕ) : ℂ))⁻¹ else 1)
          * dftG is_inverse (2 ^ k) x r)
    ∧ (∀ q, 2 ^ k ≤ q → base_f32_fft_in_place x (2 ^ k) is_inverse q = x q) := by
  rcases Nat.eq_zero_or_pos k with hk | hk
  · subst hk
    rw [base_f32_fft_in_place]
    constructor
    · intro r hr
      have hr0 : r = 0 := by omega
      subst hr0
      rw [passLoop, dif_neg (by norm_num)]
      rw [reverse_bit_sort_apply x 0 0]
      have hdft : dftG is_inverse (2 ^ 0) x 0 = x 0 := by
        rw [dftG]
        simp
      rw [hdft]
      cases is_inverse <;> simp [bitRev, bitRevAux]
    · intro q hq
      rw [passLoop, dif_neg (by norm_num), reverse_bit_sort_apply x 0 q, if_neg (by omega)]
  · have hbase : ∀ b r, b < 2 ^ k → r < 2 ^ (k - k) →
        reverse_bit_sort x (2 ^ k) (2 ^ (k - k) * b + r)
          = dftG is_inverse (2 ^ (k - k)) (fun m => x (2 ^ k * m + bitRev k b)) r := by
      intro b r hb hr
      have hkk : k - k = 0 := by omega
      rw [hkk] at hr ⊢
      have hr0 : r = 0 := by omega
      subst hr0
      have hpos : 2 ^ 0 * b + 0 = b := by omega
      rw [hpos, reverse_bit_sort_apply x k b, if_pos hb]
      rw [dftG]
      simp
    obtain ⟨U, P⟩ := passLoop_phase is_inverse k x k hk (le_refl k)
      (reverse_bit_sort x (2 ^ k)) hbase
    have h2 : (2 : ℕ) * 2 ^ (k - k) = 2 := by
      have : k - k = 0 := by omega
      rw [this]
      norm_num
    rw [h2] at U P
    constructor
    · intro r hr
      rw [base_f32_fft_in_place]
      exact P r hr
    · intro q hq
      rw [base_f32_fft_in_place, U q hq, reverse_bit_sort_apply x k q, if_neg (by omega)]

/-!
## Fourier inversion
-/

theorem dftG_congr_lt (is_inverse : Bool) (B r : ℕ) {y z : ℕ → ℂ}
    (h : ∀ m, m < B → y m = z m) :
    dftG is_inverse B y r = dftG is_inverse B z r :=
  Finset.sum_congr rfl (fun m hm => by rw [h m (Finset.mem_range.mp hm)])

theorem omegaC_ne_zero (is_inverse : Bool) (B : ℕ) : omegaC is_inverse B ≠ 0 :=
  Complex.exp_ne_zero _

theorem omegaC_true_inv (B : ℕ) : omegaC true B = (omegaC false B)⁻¹ := by
  rw [omegaC, omegaC, ← Complex.exp_neg]
  congr 1
  rw [sgnOf_true, sgnOf_false]
  push_cast
  ring

theorem omegaC_false_prim (k : ℕ) : IsPrimitiveRoot (omegaC false (2 ^ k)) (2 ^ k) := by
  have h := Complex.isPrimitiveRoot_exp (2 ^ k) (by positivity)
  have he : omegaC false (2 ^ k) = Complex.exp (2 * Real.pi * Complex.I / (2 ^ k : ℕ)) := by
    rw [omegaC, sgnOf_false]
    congr 1
    push_cast
    ring
  rw [he]
  exact h

/-- Orthogonality of the forward and inverse roots: the inverse Fourier sum
of the forward Fourier sums recovers `2^k` times the original value. -/
theorem dft_inversion (k r : ℕ) (hr : r < 2 ^ k) (x : ℕ → ℂ) :
    dftG true (2 ^ k) (dftG false (2 ^ k) x) r = ((2 ^ k : ℕ) : ℂ) * x r := by
  have hn : 0 < 2 ^ k := Nat.pos_pow_of_pos _ (by norm_num)
  have hprim := omegaC_false_prim k
  have hω1 : (omegaC false (2 ^ k)) ^ (2 ^ k) = 1 := omegaC_pow_self false (2 ^ k) hn
  have key : ∀ p, p < 2 ^ k →
      (∑ m ∈ Finset.range (2 ^ k),
        ((omegaC false (2 ^ k)) ^ p * (omegaC true (2 ^ k)) ^ r) ^ m)
      = if p = r then ((2 ^ k : ℕ) : ℂ) else 0 := by
    intro p hp
    by_cases hpr : p = r
    · subst hpr
      rw [if_pos rfl]
      have hz : (omegaC false (2 ^ k)) ^ p * (omegaC true (2 ^ k)) ^ p = 1 := by
        rw [omegaC_true_inv, inv_pow]
        exact mul_inv_cancel₀ (pow_ne_zero _ (omegaC_ne_zero false _))
      rw [hz]
      simp
    · rw [if_neg hpr]
      set z : ℂ := (omegaC false (2 ^ k)) ^ p * (omegaC true (2 ^ k)) ^ r with hzdef
      have hp1 : (omegaC false (2 ^ k)) ^ (p * 2 ^ k) = 1 := by
        rw [mul_comm, pow_mul, hω1, one_pow]
      have hp2 : (omegaC false (2 ^ k)) ^ (r * 2 ^ k) = 1 := by
        rw [mul_comm, pow_mul, hω1, one_pow]
      have hzn : z ^ (2 ^ k) = 1 := by
        calc z ^ (2 ^ k)
            = ((omegaC false (2 ^ k)) ^ p) ^ (2 ^ k)
              * (((omegaC false (2 ^ k)) ^ r)⁻¹) ^ (2 ^ k) := by
              rw [hzdef, omegaC_true_inv, inv_pow, mul_pow]
        _ = (omegaC false (2 ^ k)) ^ (p * 2 ^ k)
              * ((omegaC false (2 ^ k)) ^ (r * 2 ^ k))⁻¹ := by
              rw [← pow_mul, ← inv_pow, ← pow_mul, inv_pow]
        _ = 1 := by rw [hp1, hp2, inv_one, mul_one]
      have hz1 : z ≠ 1 := by
        intro hc
        rw [hzdef, omegaC_true_inv, inv_pow] at hc
        have hne : (omegaC false (2 ^ k)) ^ r ≠ 0 :=
          pow_ne_zero _ (omegaC_ne_zero false _)
        have hinv : (omegaC false (2 ^ k)) ^ p = (omegaC false (2 ^ k)) ^ r := by
          field_simp at hc
          exact hc
        exact hpr (hprim.pow_inj hp hr hinv)
      rw [geom_sum_eq hz1, hzn]
      simp
  rw [dftG]
  have hexp : ∀ m : ℕ,
      dftG false (2 ^ k) x m * (omegaC true (2 ^ k)) ^ (r * m)
        = ∑ p ∈ Finset.range (2 ^ k),
            x p * ((omegaC false (2 ^ k)) ^ p * (omegaC true (2 ^ k)) ^ r) ^ m := by
    intro m
    rw [dftG, Finset.sum_mul]
    apply Finset.sum_congr rfl
    intro p _
    rw [mul_pow, ← pow_mul, ← pow_mul, mul_comm p m, mul_comm r m]
    ring
  calc ∑ m ∈ Finset.range (2 ^ k), dftG false (2 ^ k) x m * (omegaC true (2 ^ k)) ^ (r * m)
      = ∑ m ∈ Finset.range (2 ^ k), ∑ p ∈ Finset.range (2 ^ k),
          x p * ((omegaC false (2 ^ k)) ^ p * (omegaC true (2 ^ k)) ^ r) ^ m :=
        Finset.sum_congr rfl (fun m _ => hexp m)
  _ = ∑ p ∈ Finset.range (2 ^ k), ∑ m ∈ Finset.range (2 ^ k),
          x p * ((omegaC false (2 ^ k)) ^ p * (omegaC true (2 ^ k)) ^ r) ^ m :=
        Finset.sum_comm
  _ = ∑ p ∈ Finset.range (2 ^ k),
          x p * ∑ m ∈ Finset.range (2 ^ k),
            ((omegaC false (2 ^ k)) ^ p * (omegaC true (2 ^ k)) ^ r) ^ m :=
        Finset.sum_congr rfl (fun p _ => (Finset.mul_sum _ _ _).symm)
  _ = ∑ p ∈ Finset.range (2 ^ k), x p * (if p = r then ((2 ^ k : ℕ) : ℂ) else 0) :=
        Finset.sum_congr rfl (fun p hp => by rw [key p (Finset.mem_range.mp hp)])
  _ = ∑ p ∈ Finset.range (2 ^ k), (if p = r then x p * ((2 ^ k : ℕ) : ℂ) else 0) :=
        Finset.sum_congr rfl (fun p _ => by rw [mul_ite, mul_zero])
  _ = ((2 ^ k : ℕ) : ℂ) * x r := by
        rw [Finset.sum_ite_eq' (Finset.range (2 ^ k)) r (fun p => x p * ((2 ^ k : ℕ) : ℂ)),
          if_pos (Finset.mem_range.mpr hr)]
        ring

/-- The complete round trip: the inverse transform undoes the forward
transform exactly (in exact arithmetic), at every position. -/
theorem fft_ifft_identity (k : ℕ) (x : ℕ → ℂ) :
    ∀ p, ifft_in_place (fft_in_place x (2 ^ k)) (2 ^ k) p = x p := by
  obtain ⟨Ff, Uf⟩ := base_fft_computes_dft false k x
  obtain ⟨Fi, Ui⟩ := base_fft_computes_dft true k (fft_in_place x (2 ^ k))
  intro p
  rcases Nat.lt_or_ge p (2 ^ k) with hp | hp
  · have h1 : ifft_in_place (fft_in_place x (2 ^ k)) (2 ^ k) p
        = (((2 ^ k : ℕ) : ℂ))⁻¹ * dftG true (2 ^ k) (fft_in_place x (2 ^ k)) p := by
      have h := Fi p hp
      rw [if_pos rfl] at h
      exact h
    have h2 : dftG true (2 ^ k) (fft_in_place x (2 ^ k)) p
        = dftG true (2 ^ k) (dftG false (2 ^ k) x) p := by
      apply dftG_congr_lt
      intro m hm
      have h := Ff m hm
      rw [if_neg (by simp), one_mul] at h
      exact h
    rw [h1, h2, dft_inversion k p hp x, ← mul_assoc, inv_mul_cancel₀
      (Nat.cast_ne_zero.mpr (by positivity)), one_mul]
  · have h1 := Ui p hp
    have h2 := Uf p hp
    rw [ifft_in_place]
    rw [h1, fft_in_place, h2]

/-!
## `square_transpose_in_place` is the transpose permutation
-/

theorem foldl_flatMap {α β γ : Type} (l : List α) (f : α → List β) (g : γ → β → γ)
    (init : γ) :
    (l.flatMap f).foldl g init = l.foldl (fun acc x => (f x).foldl g acc) init := by
  induction l generalizing init with
  | nil => rfl
  | cons x l ih => rw [List.flatMap_cons, List.foldl_append, List.foldl_cons, ih]

theorem square_transpose_eq_swapFold {α : Type} (a : ℕ → α) (n : ℕ) :
    square_transpose_in_place a n = swapFold (transposePairs n) a := by
  rw [square_transpose_in_place, transposePairs, swapFold, foldl_flatMap]
  have hfun : (fun (acc : ℕ → α) i =>
      (List.range' (i + 1) (n - (i + 1))).foldl
        (fun a j => swapAt a (i * n + j) (j * n + i)) acc)
      = (fun (acc : ℕ → α) i =>
        (transposeRowPairs n i).foldl (fun a pq => swapAt a pq.1 pq.2) acc) := by
    funext acc i
    rw [transposeRowPairs, List.foldl_map]
  rw [hfun]

theorem mem_transposeRowPairs (n i : ℕ) (pq : ℕ × ℕ) (h : pq ∈ transposeRowPairs n i) :
    ∃ j, i < j ∧ j < n ∧ pq = (i * n + j, j * n + i) := by
  rw [transposeRowPairs, List.mem_map] at h
  obtain ⟨j, hj, rfl⟩ := h
  rw [List.mem_range'] at hj
  obtain ⟨d, hd, rfl⟩ := hj
  exact ⟨i + 1 + 1 * d, by omega, by omega, rfl⟩

theorem mem_transposePairs (n : ℕ) (pq : ℕ × ℕ) (h : pq ∈ transposePairs n) :
    ∃ i j, i < j ∧ j < n ∧ pq = (i * n + j, j * n + i) := by
  rw [transposePairs, List.mem_flatMap] at h
  obtain ⟨i, hi, hmem⟩ := h
  rw [List.mem_range] at hi
  obtain ⟨j, hij, hjn, rfl⟩ := mem_transposeRowPairs n i pq hmem
  exact ⟨i, j, hij, hjn, rfl⟩

theorem rowcol_div_mod (n i j : ℕ) (hj : j < n) :
    (i * n + j) / n = i ∧ (i * n + j) % n = j := by
  have hn : 0 < n := by omega
  constructor
  · rw [mul_comm, Nat.mul_add_div hn, Nat.div_eq_of_lt hj, add_zero]
  · rw [mul_comm, Nat.mul_add_mod, Nat.mod_eq_of_lt hj]

theorem rowcol_inj (n i j u v : ℕ) (hj : j < n) (hv : v < n)
    (h : i * n + j = u * n + v) : i = u ∧ j = v := by
  have h1 := (rowcol_div_mod n i j hj).1
  have h2 := (rowcol_div_mod n i j hj).2
  have h3 := (rowcol_div_mod n u v hv).1
  have h4 := (rowcol_div_mod n u v hv).2
  rw [h] at h1 h2
  exact ⟨h1.symm.trans h3, h2.symm.trans h4⟩

theorem rowcol_lt (n i j : ℕ) (hi : i < n) (hj : j < n) : i * n + j < n * n := by
  calc i * n + j < i * n + n := by omega
  _ = (i + 1) * n := by ring
  _ ≤ n * n := Nat.mul_le_mul_right n (by omega)

/-- Splitting the swap list of `square_transpose_in_place` around the swap
of the pair `(i₀, j₀)` with `i₀ < j₀ < n`. -/
theorem transposePairs_split (n i₀ j₀ : ℕ) (hij : i₀ < j₀) (hjn : j₀ < n) :
    ∃ A B, transposePairs n = A ++ (i₀ * n + j₀, j₀ * n + i₀) :: B ∧
      ∀ pq ∈ A ++ B, ∃ i j, i < j ∧ j < n ∧ ¬(i = i₀ ∧ j = j₀)
        ∧ pq = (i * n + j, j * n + i) := by
  have houter : List.range n
      = (List.range i₀ ++ [i₀]) ++ (List.range (n - (i₀ + 1))).map ((i₀ + 1) + ·) := by
    rw [← List.range_succ, ← List.range_add]
    congr 1
    omega
  have hinner : List.range' (i₀ + 1) (n - (i₀ + 1))
      = List.range' (i₀ + 1) (j₀ - (i₀ + 1)) ++ j₀ :: List.range' (j₀ + 1) (n - (j₀ + 1)) := by
    have e1 : i₀ + 1 + (j₀ - (i₀ + 1)) = j₀ := by omega
    have e2 : n - j₀ + (j₀ - (i₀ + 1)) = n - (i₀ + 1) := by omega
    have e3 : n - j₀ = (n - (j₀ + 1)) + 1 := by omega
    have h1 := List.range'_append_1 (i₀ + 1) (j₀ - (i₀ + 1)) (n - j₀)
    rw [e1, e2] at h1
    rw [← h1, e3, List.range'_succ]
  have hmid : transposeRowPairs n i₀
      = (List.range' (i₀ + 1) (j₀ - (i₀ + 1))).map (fun j => (i₀ * n + j, j * n + i₀))
        ++ (i₀ * n + j₀, j₀ * n + i₀)
          :: (List.range' (j₀ + 1) (n - (j₀ + 1))).map (fun j => (i₀ * n + j, j * n + i₀)) := by
    rw [transposeRowPairs, hinner, List.map_append, List.map_cons]
  refine ⟨(List.range i₀).flatMap (transposeRowPairs n)
      ++ (List.range' (i₀ + 1) (j₀ - (i₀ + 1))).map (fun j => (i₀ * n + j, j * n + i₀)),
    (List.range' (j₀ + 1) (n - (j₀ + 1))).map (fun j => (i₀ * n + j, j * n + i₀))
      ++ ((List.range (n - (i₀ + 1))).map ((i₀ + 1) + ·)).flatMap (transposeRowPairs n),
    ?_, ?_⟩
  · rw [transposePairs, houter, List.flatMap_append, List.flatMap_append, List.flatMap_cons,
      List.flatMap_nil, List.append_nil, hmid]
    simp [List.append_assoc]
  · intro pq hpq
    rw [List.mem_append, List.mem_append, List.mem_append] at hpq
    rcases hpq with (h | h) | (h | h)
    · rw [List.mem_flatMap] at h
      obtain ⟨i, hi, hmem⟩ := h
      rw [List.mem_range] at hi
      obtain ⟨j, hij', hjn', rfl⟩ := mem_transposeRowPairs n i pq hmem
      exact ⟨i, j, hij', hjn', by omega, rfl⟩
    · rw [List.mem_map] at h
      obtain ⟨j, hj, rfl⟩ := h
      rw [List.mem_range'] at hj
      obtain ⟨d, hd, rfl⟩ := hj
      exact ⟨i₀, i₀ + 1 + 1 * d, by omega, by omega, by omega, rfl⟩
    · rw [List.mem_map] at h
      obtain ⟨j, hj, rfl⟩ := h
      rw [List.mem_range'] at hj
      obtain ⟨d, hd, rfl⟩ := hj
      exact ⟨i₀, j₀ + 1 + 1 * d, by omega, by omega, by omega, rfl⟩
    · rw [List.mem_flatMap] at h
      obtain ⟨i, hi, hmem⟩ := h
      rw [List.mem_map] at hi
      obtain ⟨x, hx, rfl⟩ := hi
      rw [List.mem_range] at hx
      obtain ⟨j, hij', hjn', rfl⟩ := mem_transposeRowPairs n (i₀ + 1 + x) pq hmem
      exact ⟨i₀ + 1 + x, j, hij', hjn', by omega, rfl⟩

/-- Pointwise characterisation of `square_transpose_in_place`: inside the
`n×n` block it applies the transpose permutation, outside it does nothing. -/
theorem square_transpose_apply {α : Type} (a : ℕ → α) (n p : ℕ) :
    square_transpose_in_place a n p = if p < n * n then a (p % n * n + p / n) else a p := by
  rw [square_transpose_eq_swapFold]
  by_cases hp : p < n * n
  · rw [if_pos hp]
    have hn : 0 < n := by
      rcases Nat.eq_zero_or_pos n with h | h
      · subst h
        omega
      · exact h
    have hq : p / n < n := by
      rw [Nat.div_lt_iff_lt_mul hn]
      exact hp
    have hr : p % n < n := Nat.mod_lt _ hn
    have hpqr : p / n * n + p % n = p := by
      rw [mul_comm]
      exact Nat.div_add_mod p n
    rcases Nat.lt_trichotomy (p / n) (p % n) with hc | hc | hc
    · -- row < column: `p` is the first component of its swap
      obtain ⟨A, B, hsplit, hAB⟩ := transposePairs_split n (p / n) (p % n) hc hr
      have hfst : p / n * n + p % n = p := by omega
      have hp' : ∀ pq ∈ A ++ B, p ≠ pq.1 ∧ p ≠ pq.2 := by
        intro pq hmm
        obtain ⟨i, j, hij', hjn', hne, rfl⟩ := hAB pq hmm
        constructor
        · intro hc1
          replace hc1 : p = i * n + j := hc1
          obtain ⟨e1, e2⟩ := rowcol_inj n (p / n) (p % n) i j hr hjn' (by omega)
          exact hne ⟨e1.symm, e2.symm⟩
        · intro hc1
          replace hc1 : p = j * n + i := hc1
          obtain ⟨e1, e2⟩ := rowcol_inj n (p / n) (p % n) j i hr (by omega) (by omega)
          omega
      have hq' : ∀ pq ∈ A ++ B, p % n * n + p / n ≠ pq.1 ∧ p % n * n + p / n ≠ pq.2 := by
        intro pq hmm
        obtain ⟨i, j, hij', hjn', hne, rfl⟩ := hAB pq hmm
        constructor
        · intro hc1
          replace hc1 : p % n * n + p / n = i * n + j := hc1
          obtain ⟨e1, e2⟩ := rowcol_inj n (p % n) (p / n) i j hq hjn' hc1
          omega
        · intro hc1
          replace hc1 : p % n * n + p / n = j * n + i := hc1
          obtain ⟨e1, e2⟩ := rowcol_inj n (p % n) (p / n) j i hq (by omega) hc1
          exact hne ⟨e2.symm, e1.symm⟩
      rw [hsplit]
      have hcore := (swapFold_split A B (p / n * n + p % n) (p % n * n + p / n) a
        (fun pq hmm => by rw [hfst]; exact hp' pq hmm) hq').1
      have harg : swapFold (A ++ (p / n * n + p % n, p % n * n + p / n) :: B) a p
          = swapFold (A ++ (p / n * n + p % n, p % n * n + p / n) :: B) a
              (p / n * n + p % n) := by
        rw [hfst]
      rw [harg]
      exact hcore
    · -- diagonal: untouched, and the transpose index is `p` itself
      have hdiag : p % n * n + p / n = p := by
        have h2 : p % n * n + p / n = p / n * n + p % n := by rw [hc]
        rw [h2, hpqr]
      rw [hdiag]
      apply swapFold_notMem
      intro pq hmm
      obtain ⟨i, j, hij', hjn', rfl⟩ := mem_transposePairs n pq hmm
      constructor
      · intro hc1
        replace hc1 : p = i * n + j := hc1
        obtain ⟨e1, e2⟩ := rowcol_inj n (p / n) (p % n) i j hr hjn' (by omega)
        omega
      · intro hc1
        replace hc1 : p = j * n + i := hc1
        obtain ⟨e1, e2⟩ := rowcol_inj n (p / n) (p % n) j i hr (by omega) (by omega)
        omega
    · -- column < row: `p` is the second component of its swap
      obtain ⟨A, B, hsplit, hAB⟩ := transposePairs_split n (p % n) (p / n) hc hq
      have hsnd : p / n * n + p % n = p := by omega
      have hp' : ∀ pq ∈ A ++ B, p ≠ pq.1 ∧ p ≠ pq.2 := by
        intro pq hmm
        obtain ⟨i, j, hij', hjn', hne, rfl⟩ := hAB pq hmm
        constructor
        · intro hc1
          replace hc1 : p = i * n + j := hc1
          obtain ⟨e1, e2⟩ := rowcol_inj n (p / n) (p % n) i j hr hjn' (by omega)
          omega
        · intro hc1
          replace hc1 : p = j * n + i := hc1
          obtain ⟨e1, e2⟩ := rowcol_inj n (p / n) (p % n) j i hr (by omega) (by omega)
          exact hne ⟨e2.symm, e1.symm⟩
      have hq' : ∀ pq ∈ A ++ B, p % n * n + p / n ≠ pq.1 ∧ p % n * n + p / n ≠ pq.2 := by
        intro pq hmm
        obtain ⟨i, j, hij', hjn', hne, rfl⟩ := hAB pq hmm
        constructor
        · intro hc1
          replace hc1 : p % n * n + p / n = i * n + j := hc1
          obtain ⟨e1, e2⟩ := rowcol_inj n (p % n) (p / n) i j hq hjn' hc1
          exact hne ⟨e1.symm, e2.symm⟩
        · intro hc1
          replace hc1 : p % n * n + p / n = j * n + i := hc1
          obtain ⟨e1, e2⟩ := rowcol_inj n (p % n) (p / n) j i hq (by omega) hc1
          omega
      rw [hsplit]
      have hcore := (swapFold_split A B (p % n * n + p / n) (p / n * n + p % n) a
        hq' (fun pq hmm => by rw [hsnd]; exact hp' pq hmm)).2
      have harg : swapFold (A ++ (p % n * n + p / n, p / n * n + p % n) :: B) a p
          = swapFold (A ++ (p % n * n + p / n, p / n * n + p % n) :: B) a
              (p / n * n + p % n) := by
        rw [hsnd]
      rw [harg]
      exact hcore
  · rw [if_neg hp]
    apply swapFold_notMem
    intro pq hmm
    obtain ⟨i, j, hij', hjn', rfl⟩ := mem_transposePairs n pq hmm
    have h1 : i * n + j < n * n := rowcol_lt n i j (by omega) hjn'
    have h2 : j * n + i < n * n := rowcol_lt n j i hjn' (by omega)
    exact ⟨by simp; omega, by simp; omega⟩

theorem transposePairs_length (n : ℕ) : (transposePairs n).length = n * (n - 1) / 2 := by
  have hlen : ∀ l : List ℕ, (l.flatMap (transposeRowPairs n)).length
      = (l.map (fun i => n - (i + 1))).sum := by
    intro l
    induction l with
    | nil => rfl
    | cons i l ih =>
        rw [List.flatMap_cons, List.length_append, ih, List.map_cons, List.sum_cons]
        congr 1
        rw [transposeRowPairs, List.length_map, List.length_range']
  rw [transposePairs, hlen]
  have hbr : ((List.range n).map (fun i => n - (i + 1))).sum
      = ∑ i ∈ Finset.range n, (n - (i + 1)) := rfl
  rw [hbr]
  have hre : ∑ i ∈ Finset.range n, (n - (i + 1)) = ∑ i ∈ Finset.range n, (n - 1 - i) :=
    Finset.sum_congr rfl (fun i _ => by omega)
  rw [hre, Finset.sum_range_reflect (fun i => i) n]
  exact Finset.sum_range_id n

/-!
## The parallel row transform
-/

theorem sliceTransform_out (is_inverse : Bool) (N o q : ℕ) (v : ℕ → ℂ)
    (h : ¬(o ≤ q ∧ q < o + N)) :
    sliceTransform is_inverse N o v q = v q := by
  rw [sliceTransform, if_neg h]

theorem sliceTransform_in (is_inverse : Bool) (N o q : ℕ) (v : ℕ → ℂ)
    (h : o ≤ q ∧ q < o + N) :
    sliceTransform is_inverse N o v q
      = base_f32_fft_in_place (fun p => v (o + p)) N is_inverse (q - o) := by
  rw [sliceTransform, if_pos h]
  cases is_inverse with
  | false => rfl
  | true => rfl

/-- Applying the 1-D transform to rows `0..M` of a buffer, row by row:
inside the first `M` rows each row holds the transform of its original
content; everything at or beyond `M*N` is untouched. -/
theorem rowFold_apply (is_inverse : Bool) (N : ℕ) (v : ℕ → ℂ) :
    ∀ M q,
      (q < M * N →
        (List.range M).foldl (fun v i => sliceTransform is_inverse N (i * N) v) v q
          = base_f32_fft_in_place (fun p => v (q / N * N + p)) N is_inverse (q % N))
      ∧ (M * N ≤ q →
        (List.range M).foldl (fun v i => sliceTransform is_inverse N (i * N) v) v q = v q) := by
  intro M
  induction M with
  | zero =>
      intro q
      exact ⟨fun hq => absurd hq (by omega), fun _ => rfl⟩
  | succ M ih =>
      intro q
      have hMN : (M + 1) * N = M * N + N := by ring
      rw [List.range_succ, List.foldl_append, List.foldl_cons, List.foldl_nil]
      constructor
      · intro hq
        rcases Nat.lt_or_ge q (M * N) with hcase | hcase
        · rw [sliceTransform_out _ _ _ _ _ (by omega)]
          exact (ih q).1 hcase
        · have hin : M * N ≤ q ∧ q < M * N + N := ⟨hcase, by omega⟩
          rw [sliceTransform_in _ _ _ _ _ hin]
          have hfun : (fun p =>
              (List.range M).foldl (fun v i => sliceTransform is_inverse N (i * N) v) v
                (M * N + p))
              = (fun p => v (M * N + p)) := by
            funext p
            exact (ih (M * N + p)).2 (by omega)
          obtain ⟨d, rfl⟩ : ∃ d, q = M * N + d := ⟨q - M * N, by omega⟩
          have hd : d < N := by omega
          obtain ⟨e1, e2⟩ := rowcol_div_mod N M d hd
          rw [hfun]
          have he1 : (M * N + d) / N = M := e1
          have he2 : (M * N + d) % N = d := e2
          rw [he1, he2]
          congr 1
          omega
      · intro hq
        rw [sliceTransform_out _ _ _ _ _ (by omega)]
        exact (ih q).2 (by omega)

/-- One row of the write-back loop: positions `N*i + j` for `j < M` receive
`w j`; every other position is untouched. -/
theorem updFold_apply (N i : ℕ) (w : ℕ → ℂ) :
    ∀ M (a : ℕ → ℂ) q,
      (List.range M).foldl (fun a j => updAt a (N * i + j) (w j)) a q
        = if N * i ≤ q ∧ q < N * i + M then w (q - N * i) else a q := by
  intro M
  induction M with
  | zero =>
      intro a q
      rw [if_neg (by omega)]
      rfl
  | succ M ih =>
      intro a q
      rw [List.range_succ, List.foldl_append, List.foldl_cons, List.foldl_nil, updAt]
      by_cases hq : q = N * i + M
      · subst hq
        rw [if_pos rfl, if_pos (by omega)]
        congr 1
        omega
      · rw [if_neg hq, ih a q]
        by_cases hin : N * i ≤ q ∧ q < N * i + M
        · rw [if_pos hin, if_pos (by omega)]
        · rw [if_neg hin, if_neg (by omega)]

/-- The nested write-back loops for rows `s..s+m`: position `q` inside
those rows receives `w (q/N) (q%N)`; every other position is untouched. -/
theorem rowsWrite_apply (N : ℕ) (w : ℕ → ℕ → ℂ) :
    ∀ m s (a : ℕ → ℂ) q,
      ((List.range' s m).foldl
        (fun a i => (List.range N).foldl (fun a j => updAt a (N * i + j) (w i j)) a) a) q
        = if N * s ≤ q ∧ q < N * (s + m) then w (q / N) (q % N) else a q := by
  intro m
  induction m with
  | zero =>
      intro s a q
      rw [Nat.add_zero s, if_neg (by omega)]
      rfl
  | succ m ih =>
      intro s a q
      have e1 : N * (s + 1) = N * s + N := by ring
      have e2 : N * (s + 1 + m) = N * s + N + N * m := by ring
      have e3 : N * (s + (m + 1)) = N * s + N + N * m := by ring
      rw [List.range'_succ, List.foldl_cons, ih]
      by_cases hin : N * (s + 1) ≤ q ∧ q < N * (s + 1 + m)
      · rw [if_pos hin]
        have h1 := hin.1
        have h2 := hin.2
        rw [e1] at h1
        rw [e2] at h2
        rw [if_pos (by omega)]
      · rw [if_neg hin, updFold_apply N s (w s) N a q]
        by_cases hrow : N * s ≤ q ∧ q < N * s + N
        · have h1 := hrow.1
          have h2 := hrow.2
          rw [if_pos hrow, if_pos (by omega)]
          obtain ⟨d, hqd⟩ : ∃ d, q = N * s + d := ⟨q - N * s, by omega⟩
          subst hqd
          have hd : d < N := by omega
          have he1 : (N * s + d) / N = s := by
            rw [Nat.mul_add_div (by omega), Nat.div_eq_of_lt hd, add_zero]
          have he2 : (N * s + d) % N = d := by
            rw [Nat.mul_add_mod, Nat.mod_eq_of_lt hd]
          rw [he1, he2]
          congr 1
          omega
        · have hfull : ¬(N * s ≤ q ∧ q < N * (s + (m + 1))) := by
            intro hc
            have h2 := hc.2
            rw [e3] at h2
            apply hin
            constructor
            · rw [e1]
              omega
            · rw [e2]
              omega
          rw [if_neg hrow, if_neg hfull]

/-- What the write-back of one partition does: the partition's row block
receives the worker buffer, everything else is untouched. -/
theorem mergePartition_apply (N TC th : ℕ) (hdvd : TC ∣ N) (v a : ℕ → ℂ) (q : ℕ) :
    mergePartition N TC th v a q
      = if N * (th * (N / TC)) ≤ q ∧ q < N * ((th + 1) * (N / TC))
        then v (q - N * (th * (N / TC))) else a q := by
  have hs : th * N / TC = th * (N / TC) := Nat.mul_div_assoc th hdvd
  have hs1 : (th + 1) * N / TC = (th + 1) * (N / TC) := Nat.mul_div_assoc _ hdvd
  rw [mergePartition, rowsWrite_apply, hs, hs1]
  have hle : th * (N / TC) ≤ (th + 1) * (N / TC) := Nat.mul_le_mul_right _ (by omega)
  have hm : th * (N / TC) + ((th + 1) * (N / TC) - th * (N / TC)) = (th + 1) * (N / TC) := by
    omega
  rw [hm]
  by_cases hq : N * (th * (N / TC)) ≤ q ∧ q < N * ((th + 1) * (N / TC))
  · rw [if_pos hq, if_pos hq]
    have hN : 0 < N := by
      rcases Nat.eq_zero_or_pos N with h0 | h0
      · exfalso
        have h2 := hq.2
        subst h0
        simp at h2
      · exact h0
    obtain ⟨d, hqd⟩ : ∃ d, q = N * (th * (N / TC)) + d := ⟨q - N * (th * (N / TC)), by omega⟩
    subst hqd
    have he1 : (N * (th * (N / TC)) + d) / N = th * (N / TC) + d / N :=
      Nat.mul_add_div hN _ _
    have he2 : (N * (th * (N / TC)) + d) % N = d % N := Nat.mul_add_mod _ _ _
    rw [he1, he2]
    have h3 : th * (N / TC) + d / N - th * (N / TC) = d / N := by simp
    rw [h3]
    have h4 : d / N * N + d % N = d := by
      rw [mul_comm]
      exact Nat.div_add_mod d N
    have h5 : N * (th * (N / TC)) + d - N * (th * (N / TC)) = d := by simp
    congr 1
    rw [h5, h4]
  · rw [if_neg hq, if_neg hq]

/-- Positions not covered by any partition in the list are untouched by
the merge fold. -/
theorem mergeFold_out (N TC : ℕ) (hdvd : TC ∣ N) (V : ℕ → ℕ → ℂ) :
    ∀ (L : List ℕ) (a : ℕ → ℂ) (q : ℕ),
      (∀ th ∈ L, ¬(N * (th * (N / TC)) ≤ q ∧ q < N * ((th + 1) * (N / TC)))) →
      (L.foldl (fun acc th => mergePartition N TC th (V th) acc) a) q = a q := by
  intro L
  induction L with
  | nil => intro a q _; rfl
  | cons t L ih =>
      intro a q h
      rw [List.foldl_cons, ih _ q (fun th hth => h th (List.mem_cons_of_mem _ hth)),
        mergePartition_apply N TC t hdvd _ a q, if_neg (h t (List.mem_cons_self _ _))]

/-- A position inside partition `th₀`'s row block ends up holding that
partition's buffer content, whatever the merge order. -/
theorem mergeFold_in (N TC : ℕ) (hdvd : TC ∣ N) (V : ℕ → ℕ → ℂ) :
    ∀ (L : List ℕ) (a : ℕ → ℂ) (q th₀ : ℕ), th₀ ∈ L → L.Nodup →
      (N * (th₀ * (N / TC)) ≤ q ∧ q < N * ((th₀ + 1) * (N / TC))) →
      (L.foldl (fun acc th => mergePartition N TC th (V th) acc) a) q
        = V th₀ (q - N * (th₀ * (N / TC))) := by
  intro L
  induction L with
  | nil =>
      intro a q th₀ h
      exact absurd h (List.not_mem_nil _)
  | cons t L ih =>
      intro a q th₀ hmem hnodup hq
      have hdisj : ∀ th, th ≠ th₀ → ¬(N * (th * (N / TC)) ≤ q ∧ q < N * ((th + 1) * (N / TC))) := by
        intro th hne hc
        rcases Nat.lt_or_ge th th₀ with h | h
        · have h1 : (th + 1) * (N / TC) ≤ th₀ * (N / TC) := Nat.mul_le_mul_right _ (by omega)
          have h2 : N * ((th + 1) * (N / TC)) ≤ N * (th₀ * (N / TC)) := Nat.mul_le_mul_left _ h1
          omega
        · have h' : th₀ < th := by omega
          have h1 : (th₀ + 1) * (N / TC) ≤ th * (N / TC) := Nat.mul_le_mul_right _ (by omega)
          have h2 : N * ((th₀ + 1) * (N / TC)) ≤ N * (th * (N / TC)) := Nat.mul_le_mul_left _ h1
          omega
      rw [List.foldl_cons]
      rcases List.mem_cons.mp hmem with heq | hmem'
      · subst heq
        have hnotin : th₀ ∉ L := (List.nodup_cons.mp hnodup).1
        rw [mergeFold_out N TC hdvd V L _ q
          (fun th hth => hdisj th (fun hc => hnotin (hc ▸ hth))),
          mergePartition_apply N TC th₀ hdvd _ a q, if_pos hq]
      · exact ih _ q th₀ hmem' (List.nodup_cons.mp hnodup).2 hq

/-!
## Claim theorems
-/

/-- C1: for every power-of-two size `N` and every complex sequence `x`,
applying the forward transform and then the inverse transform in place
reconstructs the original sequence elementwise (exactly, in the exact
arithmetic model — the floating-point tolerance of the claim becomes exact
equality). -/
theorem C1_forward_inverse_roundtrip (n k : ℕ) (hn : n = 2 ^ k) (x : ℕ → ℂ) :
    ∀ p, ifft_in_place (fft_in_place x n) n p = x p := by
  subst hn
  exact fft_ifft_identity k x

theorem C1_forward_inverse_roundtrip_witness :
    2 = 2 ^ 1
    ∧ ∀ p, ifft_in_place (fft_in_place (fun _ => (1 : ℂ)) 2) 2 p = (fun _ => (1 : ℂ)) p :=
  ⟨by norm_num, C1_forward_inverse_roundtrip 2 1 (by norm_num) (fun _ => (1 : ℂ))⟩

/-- C2: the butterfly scale factor equals `1/N` exactly when the call is
inverse and the current block size equals the input size `N` (the final
pass), and equals `1` in every other pass and in every forward call. -/
theorem C2_scale_factor_once (is_inverse : Bool) (size block_size : ℕ) (hsize : 2 ≤ size) :
    (sFactor is_inverse size block_size = 1 / (size : ℝ)
      ↔ (is_inverse = true ∧ block_size = size))
    ∧ (¬(is_inverse = true ∧ block_size = size) → sFactor is_inverse size block_size = 1) := by
  have hlt : 1 / (size : ℝ) ≠ 1 := by
    have h2 : (2 : ℝ) ≤ (size : ℝ) := by exact_mod_cast hsize
    intro hc
    rw [div_eq_one_iff_eq (by linarith)] at hc
    linarith
  constructor
  · constructor
    · intro h
      by_contra hc
      rw [sFactor, if_neg hc] at h
      exact hlt h.symm
    · intro h
      rw [sFactor, if_pos h]
  · intro h
    rw [sFactor, if_neg h]

theorem C2_scale_factor_once_witness :
    2 ≤ 4
    ∧ ((sFactor true 4 4 = 1 / ((4 : ℕ) : ℝ) ↔ (true = true ∧ 4 = 4))
      ∧ (¬(true = true ∧ 4 = 4) → sFactor true 4 4 = 1)) :=
  ⟨by norm_num, C2_scale_factor_once true 4 4 (by norm_num)⟩

/-- C3 counterexample: the claim says the forward (`is_inverse = false`)
twiddle factor has imaginary part `-1 · sin(2π·i/block_size)`; at
`block_size = 4`, `i = 1` the code's twiddle factor has imaginary part
`+sin(π/2) = 1`, not `-1`. -/
theorem C3_sign_counterexample :
    ¬ ((twiddle false 4 1).im = -1 * Real.sin (2 * Real.pi * 1 / 4)) := by
  rw [twiddle]
  show ¬ (sgnOf false * Real.sin (2 * Real.pi * ((1 : ℕ) : ℝ) / ((4 : ℕ) : ℝ))
    = -1 * Real.sin (2 * Real.pi * 1 / 4))
  push_cast
  rw [sgnOf_false]
  have hθ : 2 * Real.pi * (1 : ℝ) / 4 = Real.pi / 2 := by ring
  rw [hθ, Real.sin_pi_div_two]
  norm_num

/-- C3 amended: in every butterfly step the twiddle factor is
`e = cos(2π·i/block_size) + sign·i·sin(2π·i/block_size)` with `sign = +1`
when the transform is forward (`is_inverse = false`) and `sign = -1` when
it is inverse — the opposite of the claim's convention — and it equals the
`i`-th power of `exp(sign·2π·I/block_size)`.  (The higher-precision `f64`
computation is the identity in the exact model.) -/
theorem C3_sign_convention (is_inverse : Bool) (block_size i : ℕ) :
    twiddle is_inverse block_size i
      = Complex.mk (Real.cos (2 * Real.pi * i / block_size))
          ((if is_inverse then (-1 : ℝ) else 1) * Real.sin (2 * Real.pi * i / block_size))
    ∧ twiddle is_inverse block_size i = (omegaC is_inverse block_size) ^ i :=
  ⟨rfl, twiddle_eq_pow is_inverse block_size i⟩

/-- C4: `horizontal_square_fft` leaves the `N×N` buffer in the same state
as applying `base_f32_fft_in_place` (same direction) to each of the `N`
rows in sequence on one thread: every partition's result lands at absolute
row offsets derived from the partition's index.  `N` and `TH_COUNT` are
the spec's global constants, taken as parameters with the spec's
divisibility precondition. -/
theorem C4_parallel_rows_eq_sequential (N TC k : ℕ) (hN : N = 2 ^ k) (hTC : 0 < TC)
    (hdvd : TC ∣ N) (is_inverse : Bool) (a : ℕ → ℂ) :
    ∀ q, horizontal_square_fft N TC is_inverse a q = seqRowTransform is_inverse N a q := by
  have hN0 : 0 < N := by
    rw [hN]
    positivity
  have hR0 : 0 < N / TC := Nat.div_pos (Nat.le_of_dvd hN0 hdvd) hTC
  have hTCNR : TC * (N * (N / TC)) = N * N := by
    calc TC * (N * (N / TC)) = N * (TC * (N / TC)) := by ring
    _ = N * N := by rw [Nat.mul_div_cancel' hdvd]
  intro q
  rcases Nat.lt_or_ge q (N * N) with hq | hq
  · -- `q` lies in the grid: both sides transform row `q / N`
    have hRN0 : 0 < N * (N / TC) := by positivity
    have hdm := Nat.div_add_mod q (N * (N / TC))
    have hmlt : q % (N * (N / TC)) < N * (N / TC) := Nat.mod_lt _ hRN0
    have hth_lt : q / (N * (N / TC)) < TC := by
      rw [Nat.div_lt_iff_lt_mul hRN0]
      omega
    have e1 : N * (q / (N * (N / TC)) * (N / TC))
        = N * (N / TC) * (q / (N * (N / TC))) := by ring
    have e2 : N * ((q / (N * (N / TC)) + 1) * (N / TC))
        = N * (N / TC) * (q / (N * (N / TC))) + N * (N / TC) := by ring
    have hblock : N * (q / (N * (N / TC)) * (N / TC)) ≤ q
        ∧ q < N * ((q / (N * (N / TC)) + 1) * (N / TC)) := by omega
    have hhor : horizontal_square_fft N TC is_inverse a q
        = workerRows is_inverse N TC (partitionCopy N TC (q / (N * (N / TC))) a)
            (q - N * (q / (N * (N / TC)) * (N / TC))) := by
      rw [horizontal_square_fft]
      exact mergeFold_in N TC hdvd
        (fun th => workerRows is_inverse N TC (partitionCopy N TC th a))
        ((List.range TC).reverse) a q (q / (N * (N / TC)))
        (by rw [List.mem_reverse, List.mem_range]; exact hth_lt)
        (List.nodup_reverse.mpr (List.nodup_range TC))
        hblock
    have hq'eq : q = N * (q / (N * (N / TC)) * (N / TC))
        + (q - N * (q / (N * (N / TC)) * (N / TC))) := by omega
    have hq'lt : q - N * (q / (N * (N / TC)) * (N / TC)) < N / TC * N := by
      have e3 : N / TC * N = N * (N / TC) := by ring
      omega
    have hwork : workerRows is_inverse N TC (partitionCopy N TC (q / (N * (N / TC))) a)
          (q - N * (q / (N * (N / TC)) * (N / TC)))
        = base_f32_fft_in_place
            (fun p => partitionCopy N TC (q / (N * (N / TC))) a
              ((q - N * (q / (N * (N / TC)) * (N / TC))) / N * N + p))
            N is_inverse ((q - N * (q / (N * (N / TC)) * (N / TC))) % N) := by
      rw [workerRows]
      exact (rowFold_apply is_inverse N _ (N / TC) _).1 hq'lt
    have hseq : seqRowTransform is_inverse N a q
        = base_f32_fft_in_place (fun p => a (q / N * N + p)) N is_inverse (q % N) := by
      rw [seqRowTransform]
      exact (rowFold_apply is_inverse N a N q).1 (by omega)
    have hdivq : q / N
        = q / (N * (N / TC)) * (N / TC) + (q - N * (q / (N * (N / TC)) * (N / TC))) / N := by
      conv_lhs => rw [hq'eq]
      rw [Nat.mul_add_div hN0]
    have hmodq : q % N = (q - N * (q / (N * (N / TC)) * (N / TC))) % N := by
      conv_lhs => rw [hq'eq]
      rw [Nat.mul_add_mod]
    have hcopy : (q / (N * (N / TC))) * N * N / TC = N * (q / (N * (N / TC)) * (N / TC)) := by
      rw [Nat.mul_div_assoc (q / (N * (N / TC)) * N) hdvd]
      ring
    have hfun : (fun p => partitionCopy N TC (q / (N * (N / TC))) a
          ((q - N * (q / (N * (N / TC)) * (N / TC))) / N * N + p))
        = (fun p => a (q / N * N + p)) := by
      funext p
      rw [partitionCopy, hcopy]
      congr 1
      rw [hdivq]
      ring
    rw [hhor, hwork, hseq, hfun, hmodq]
  · -- `q` is outside the grid: both sides leave it unchanged
    have hhor : horizontal_square_fft N TC is_inverse a q = a q := by
      rw [horizontal_square_fft]
      apply mergeFold_out N TC hdvd
        (fun th => workerRows is_inverse N TC (partitionCopy N TC th a))
      intro th hth
      rw [List.mem_reverse, List.mem_range] at hth
      intro hc
      have h1 : (th + 1) * (N / TC) ≤ TC * (N / TC) := Nat.mul_le_mul_right _ (by omega)
      have h2 : N * ((th + 1) * (N / TC)) ≤ N * (TC * (N / TC)) := Nat.mul_le_mul_left _ h1
      have h3 : N * (TC * (N / TC)) = N * N := by
        rw [Nat.mul_div_cancel' hdvd]
      omega
    have hseq : seqRowTransform is_inverse N a q = a q := by
      rw [seqRowTransform]
      exact (rowFold_apply is_inverse N a N q).2 hq
    rw [hhor, hseq]

theorem C4_parallel_rows_eq_sequential_witness :
    2 = 2 ^ 1 ∧ 0 < 2 ∧ 2 ∣ 2
    ∧ ∀ q, horizontal_square_fft 2 2 false (fun _ => (1 : ℂ)) q
        = seqRowTransform false 2 (fun _ => (1 : ℂ)) q :=
  ⟨by norm_num, by norm_num, by norm_num,
    C4_parallel_rows_eq_sequential 2 2 1 (by norm_num) (by norm_num) (by norm_num)
      false (fun _ => (1 : ℂ))⟩

/-- C8: if any worker's channel closes without delivering its partition
(`deliver th = none`), the blocking `recv().unwrap()` aborts the whole
call — modelled as `none` propagating through the merge fold, with no
recovery and no error value handed back. -/
theorem C8_worker_failure_aborts (N TC : ℕ) (deliver : ℕ → Option (ℕ → ℂ)) (a : ℕ → ℂ)
    (h : ∃ th, th < TC ∧ deliver th = none) :
    horizontal_square_fft_recv N TC deliver a = none := by
  obtain ⟨th, hth, hnone⟩ := h
  rw [horizontal_square_fft_recv]
  have habs : ∀ L : List ℕ,
      L.foldl (fun acc th_index => acc.bind (fun arr => (deliver th_index).map
        (fun v => mergePartition N TC th_index v arr))) none = none := by
    intro L
    induction L with
    | nil => rfl
    | cons t L ih =>
        rw [List.foldl_cons]
        exact ih
  have hkey : ∀ (L : List ℕ) (acc : Option (ℕ → ℂ)), th ∈ L →
      L.foldl (fun acc th_index => acc.bind (fun arr => (deliver th_index).map
        (fun v => mergePartition N TC th_index v arr))) acc = none := by
    intro L
    induction L with
    | nil =>
        intro acc hmem
        exact absurd hmem (List.not_mem_nil _)
    | cons t L ih =>
        intro acc hmem
        rw [List.foldl_cons]
        rcases List.mem_cons.mp hmem with heq | hmem'
        · subst heq
          have hbody : acc.bind (fun arr => (deliver th).map
              (fun v => mergePartition N TC th v arr)) = none := by
            rw [hnone]
            cases acc <;> rfl
          rw [hbody]
          exact habs L
        · exact ih _ hmem'
  exact hkey _ (some a) (by rw [List.mem_reverse, List.mem_range]; exact hth)

theorem C8_worker_failure_aborts_witness :
    (∃ th, th < 2 ∧ (fun _ : ℕ => (none : Option (ℕ → ℂ))) th = none)
    ∧ horizontal_square_fft_recv 4 2 (fun _ => none) (fun _ => (0 : ℂ)) = none :=
  ⟨⟨0, by norm_num, rfl⟩,
    C8_worker_failure_aborts 4 2 (fun _ => none) (fun _ => (0 : ℂ)) ⟨0, by norm_num, rfl⟩⟩

/-- When every worker delivers, the recv model agrees with the pure
parallel transform. -/
theorem recv_all_delivered (N TC : ℕ) (is_inverse : Bool) (a : ℕ → ℂ) :
    horizontal_square_fft_recv N TC
      (fun th => some (workerRows is_inverse N TC (partitionCopy N TC th a))) a
      = some (horizontal_square_fft N TC is_inverse a) := by
  rw [horizontal_square_fft_recv, horizontal_square_fft]
  have hgen : ∀ (L : List ℕ) (acc : ℕ → ℂ),
      L.foldl (fun acc th_index => acc.bind (fun arr =>
        ((fun th => some (workerRows is_inverse N TC (partitionCopy N TC th a))) th_index).map
          (fun v => mergePartition N TC th_index v arr))) (some acc)
      = some (L.foldl (fun acc th_index => mergePartition N TC th_index
          (workerRows is_inverse N TC (partitionCopy N TC th_index a)) acc) acc) := by
    intro L
    induction L with
    | nil => intro acc; rfl
    | cons t L ih =>
        intro acc
        rw [List.foldl_cons, List.foldl_cons]
        exact ih _
  exact hgen _ a

/-- C5: for every power-of-two `n`, applying `reverse_bit_sort` twice
restores the sequence exactly — the conditional swap discipline
(`rev >= i`) realises the self-inverse bit-reversal permutation once. -/
theorem C5_reverse_bit_sort_involution (n k : ℕ) (hn : n = 2 ^ k) (a : ℕ → ℂ) :
    ∀ p, reverse_bit_sort (reverse_bit_sort a n) n p = a p := by
  subst hn
  intro p
  rw [reverse_bit_sort_apply]
  by_cases hp : p < 2 ^ k
  · rw [if_pos hp, reverse_bit_sort_apply, if_pos (bitRev_lt k p), bitRev_bitRev k p hp]
  · rw [if_neg hp, reverse_bit_sort_apply, if_neg hp]

theorem C5_reverse_bit_sort_involution_witness :
    4 = 2 ^ 2
    ∧ ∀ p, reverse_bit_sort (reverse_bit_sort (fun m => ((m : ℂ))) 4) 4 p = ((p : ℂ)) :=
  ⟨by norm_num, C5_reverse_bit_sort_involution 4 2 (by norm_num) (fun m => ((m : ℂ)))⟩

/-- C6: `square_transpose_in_place` applied twice restores the buffer
exactly; one application swaps offsets `i·n+j` and `j·n+i` for `i < j`,
never touches diagonal offsets, and performs exactly `n(n-1)/2` swaps. -/
theorem C6_transpose_involution (n : ℕ) (a : ℕ → ℂ) :
    (∀ p, square_transpose_in_place (square_transpose_in_place a n) n p = a p)
    ∧ (∀ i, i < n → square_transpose_in_place a n (i * n + i) = a (i * n + i))
    ∧ (∀ i j, i < j → j < n →
        square_transpose_in_place a n (i * n + j) = a (j * n + i)
        ∧ square_transpose_in_place a n (j * n + i) = a (i * n + j))
    ∧ (transposePairs n).length = n * (n - 1) / 2 := by
  refine ⟨?_, ?_, ?_, transposePairs_length n⟩
  · intro p
    rw [square_transpose_apply]
    by_cases hp : p < n * n
    · have hn : 0 < n := by
        rcases Nat.eq_zero_or_pos n with h | h
        · subst h
          omega
        · exact h
      have hq : p / n < n := by
        rw [Nat.div_lt_iff_lt_mul hn]
        exact hp
      have hr : p % n < n := Nat.mod_lt _ hn
      have hτ : p % n * n + p / n < n * n := rowcol_lt n (p % n) (p / n) hr hq
      rw [if_pos hp, square_transpose_apply, if_pos hτ]
      obtain ⟨ed, em⟩ := rowcol_div_mod n (p % n) (p / n) hq
      rw [ed, em]
      congr 1
      rw [mul_comm]
      exact Nat.div_add_mod p n
    · rw [if_neg hp, square_transpose_apply, if_neg hp]
  · intro i hi
    have hlt : i * n + i < n * n := rowcol_lt n i i hi hi
    rw [square_transpose_apply, if_pos hlt]
    obtain ⟨ed, em⟩ := rowcol_div_mod n i i hi
    rw [ed, em]
  · intro i j hij hjn
    have h1 : i * n + j < n * n := rowcol_lt n i j (by omega) hjn
    have h2 : j * n + i < n * n := rowcol_lt n j i hjn (by omega)
    obtain ⟨ed1, em1⟩ := rowcol_div_mod n i j hjn
    obtain ⟨ed2, em2⟩ := rowcol_div_mod n j i (by omega)
    constructor
    · rw [square_transpose_apply, if_pos h1, ed1, em1]
    · rw [square_transpose_apply, if_pos h2, ed2, em2]

theorem C6_transpose_involution_witness :
    square_transpose_in_place (fun m => ((m : ℂ))) 2 (0 * 2 + 1) = ((1 * 2 + 0 : ℕ) : ℂ)
    ∧ (transposePairs 2).length = 2 * (2 - 1) / 2 :=
  ⟨((C6_transpose_involution 2 (fun m => ((m : ℂ)))).2.2.1 0 1 (by norm_num) (by norm_num)).1,
    (C6_transpose_involution 2 (fun m => ((m : ℂ)))).2.2.2⟩

/-- C7: for `N = 2`, the forward transform is exactly a single butterfly
with twiddle factor `1` and scale factor `1`:
`fft_in_place [x0, x1] = [x0 + x1, x0 - x1]`. -/
theorem C7_two_point_forward (a : ℕ → ℂ) :
    fft_in_place a 2 0 = a 0 + a 1
    ∧ fft_in_place a 2 1 = a 0 - a 1
    ∧ twiddle false 2 0 = 1
    ∧ sFactor false 2 2 = 1 := by
  obtain ⟨Ff, _⟩ := base_fft_computes_dft false 1 a
  have hω : omegaC false 2 = -1 := by
    have h := omegaC_pow_half false 1 (by norm_num)
    rw [pow_one] at h
    rw [show (2 : ℕ) * 1 = 2 from rfl] at h
    exact h
  have h0 : fft_in_place a 2 0 = a 0 + a 1 := by
    have h := Ff 0 (by norm_num)
    rw [if_neg (by simp), one_mul] at h
    rw [fft_in_place]
    rw [show (2 : ℕ) ^ 1 = 2 from rfl] at h
    rw [h, dftG]
    rw [Finset.sum_range_succ, Finset.sum_range_succ, Finset.sum_range_zero]
    simp
  have h1 : fft_in_place a 2 1 = a 0 - a 1 := by
    have h := Ff 1 (by norm_num)
    rw [if_neg (by simp), one_mul] at h
    rw [fft_in_place]
    rw [show (2 : ℕ) ^ 1 = 2 from rfl] at h
    rw [h, dftG]
    rw [Finset.sum_range_succ, Finset.sum_range_succ, Finset.sum_range_zero]
    rw [hω]
    ring_nf
  have htw : twiddle false 2 0 = 1 := by
    rw [twiddle, sgnOf_false]
    apply Complex.ext
    · show Real.cos (2 * Real.pi * ((0 : ℕ) : ℝ) / ((2 : ℕ) : ℝ)) = 1
      push_cast
      rw [mul_zero, zero_div, Real.cos_zero]
    · show 1 * Real.sin (2 * Real.pi * ((0 : ℕ) : ℝ) / ((2 : ℕ) : ℝ)) = 0
      push_cast
      rw [mul_zero, zero_div, Real.sin_zero, mul_zero]
  have hsf : sFactor false 2 2 = 1 := by
    rw [sFactor, if_neg]
    intro hc
    exact absurd hc.1 (by simp)
  exact ⟨h0, h1, htw, hsf⟩

/-- C9: for `size = 1` both the forward and the inverse transform are the
identity: the bit reversal degenerates to a self-swap, the butterfly loop
never runs, and no `1/N` normalisation is applied. -/
theorem C9_size_one_identity (a : ℕ → ℂ) :
    (∀ p, fft_in_place a 1 p = a p) ∧ (∀ p, ifft_in_place a 1 p = a p) := by
  constructor
  · intro p
    rcases Nat.lt_or_ge p 1 with hp | hp
    · have hp0 : p = 0 := by omega
      subst hp0
      have h := (base_fft_computes_dft false 0 a).1 0 (by norm_num)
      rw [if_neg (by simp), one_mul] at h
      rw [fft_in_place]
      rw [show (2 : ℕ) ^ 0 = 1 from rfl] at h
      rw [h, dftG]
      simp
    · have h := (base_fft_computes_dft false 0 a).2 p hp
      rw [show (2 : ℕ) ^ 0 = 1 from rfl] at h
      rw [fft_in_place, h]
  · intro p
    rcases Nat.lt_or_ge p 1 with hp | hp
    · have hp0 : p = 0 := by omega
      subst hp0
      have h := (base_fft_computes_dft true 0 a).1 0 (by norm_num)
      rw [if_pos rfl] at h
      rw [ifft_in_place]
      rw [show (2 : ℕ) ^ 0 = 1 from rfl] at h
      rw [h, dftG]
      simp
    · have h := (base_fft_computes_dft true 0 a).2 p hp
      rw [show (2 : ℕ) ^ 0 = 1 from rfl] at h
      rw [ifft_in_place, h]

/-- C10: on a slice longer than the transform size `n = 2^k`, both
`base_f32_fft_in_place` and `reverse_bit_sort` leave every element at
index `≥ n` unchanged. -/
theorem C10_frame_effect (n k : ℕ) (hn : n = 2 ^ k) (is_inverse : Bool) (a : ℕ → ℂ) :
    ∀ p, n ≤ p →
      base_f32_fft_in_place a n is_inverse p = a p ∧ reverse_bit_sort a n p = a p := by
  subst hn
  intro p hp
  refine ⟨(base_fft_computes_dft is_inverse k a).2 p hp, ?_⟩
  rw [reverse_bit_sort_apply a k p, if_neg (by omega)]

theorem C10_frame_effect_witness :
    2 = 2 ^ 1 ∧ 2 ≤ 3
    ∧ (base_f32_fft_in_place (fun m => ((m : ℂ))) 2 false 3 = ((3 : ℕ) : ℂ)
      ∧ reverse_bit_sort (fun m => ((m : ℂ))) 2 3 = ((3 : ℕ) : ℂ)) :=
  ⟨by norm_num, by norm_num,
    C10_frame_effect 2 1 (by norm_num) false (fun m => ((m : ℂ))) 3 (by norm_num)⟩

end Fft
